import Mathlib

/-!
Verification of the skill-sync engine of this repository.

The development shallowly embeds the Python sources under
`backup/agents-skills/skill-sync/scripts/`:

* `diff_generator.py` — binary detection, unified diffs (via Python's
  `difflib`, whose `SequenceMatcher`/`unified_diff` pipeline is modelled
  here), and directory-level comparison;
* `patch_applier.py` — backup, overwrite-copy and restore over a
  file-system model (finite maps from paths to byte strings);
* `upstream_check.py` — upstream checking with the external `git`
  processes modelled as oracles supplied to the functions;
* `registry.py` — the persisted JSON registry, modelled as an optional
  in-memory record standing for the registry file.

Bytes are modelled as `Nat` (values < 256 in practice), characters as
Unicode code points (`Nat`), strings produced by the code as lists of
code points, and file paths as lists of components.
-/

namespace SkillSync

/-- Code points of a Lean string literal, used to write the exact string
constants appearing in the Python source. -/
def codes (s : String) : List Nat := s.data.map Char.toNat

/-- Decimal representation of a natural number as code points
(Python `str(n)` for `n ≥ 0`). -/
def natCodes (n : Nat) : List Nat := (Nat.toDigits 10 n).map Char.toNat

/-- Python `"\n".join(lines)` on code-point lists. -/
def joinNL : List (List Nat) → List Nat
  | [] => []
  | [x] => x
  | x :: xs => x ++ 10 :: joinNL xs

/-! ### Model of Python `difflib`

`diff_generator.py` calls `difflib.unified_diff(a, b, fromfile, tofile,
lineterm="")`.  The definitions below model CPython's
`SequenceMatcher` (without junk heuristics: the sources pass no junk
predicate, and the popularity heuristic only alters block boundaries on
sequences of 200+ lines, never the properties proved here),
`get_matching_blocks`, `get_opcodes`, `get_grouped_opcodes` and
`unified_diff`.  `find_longest_match` is stated extensionally: among all
matching blocks inside the window it returns the longest, ties broken by
least first index and then least second index, which is the selection
CPython's scan performs. -/

section SeqMatcher

variable {α : Type} [DecidableEq α]

/-- Length of the longest common prefix of two lists. -/
def cpl : List α → List α → Nat
  | x :: xs, y :: ys => if x = y then cpl xs ys + 1 else 0
  | _, _ => 0

/-- Length of the matching run starting at positions `i`, `j`, confined to
the window `[·, ahi) × [·, bhi)`. -/
def extLen (a b : List α) (ahi bhi i j : Nat) : Nat :=
  cpl ((a.drop i).take (ahi - i)) ((b.drop j).take (bhi - j))

/-- All candidate matches considered by `find_longest_match` on the window
`[alo, ahi) × [blo, bhi)`, in the scan order of the source. -/
def flmCands (a b : List α) (alo ahi blo bhi : Nat) : List (Nat × Nat × Nat) :=
  (List.range' alo (ahi - alo)).flatMap fun i =>
    (List.range' blo (bhi - blo)).map fun j => (i, j, extLen a b ahi bhi i j)

/-- Selection step: a later candidate replaces the current best only when
strictly longer, which preserves the least-index tie-breaking. -/
def chooseBest (best c : Nat × Nat × Nat) : Nat × Nat × Nat :=
  if best.2.2 < c.2.2 then c else best

/-- `SequenceMatcher.find_longest_match` on a window; returns
`(besti, bestj, bestsize)`, with `(alo, blo, 0)` when nothing matches. -/
def flm (a b : List α) (alo ahi blo bhi : Nat) : Nat × Nat × Nat :=
  (flmCands a b alo ahi blo bhi).foldl chooseBest (alo, blo, 0)

theorem cpl_le_left (xs ys : List α) : cpl xs ys ≤ xs.length := by
  induction xs generalizing ys with
  | nil => simp [cpl]
  | cons x xs ih =>
    cases ys with
    | nil => simp [cpl]
    | cons y ys =>
      by_cases h : x = y
      · simp only [cpl, if_pos h, List.length_cons, Nat.add_le_add_iff_right]
        exact ih ys
      · simp [cpl, h]

theorem cpl_take (xs ys : List α) : xs.take (cpl xs ys) = ys.take (cpl xs ys) := by
  induction xs generalizing ys with
  | nil => simp [cpl]
  | cons x xs ih =>
    cases ys with
    | nil => simp [cpl]
    | cons y ys =>
      by_cases h : x = y
      · simp [cpl, h, ih ys]
      · simp [cpl, h]

theorem cpl_self (xs : List α) : cpl xs xs = xs.length := by
  induction xs with
  | nil => rfl
  | cons x xs ih => simp [cpl, ih]

theorem foldl_chooseBest_cases (l : List (Nat × Nat × Nat)) (b : Nat × Nat × Nat) :
    l.foldl chooseBest b = b ∨ l.foldl chooseBest b ∈ l := by
  induction l generalizing b with
  | nil => left; rfl
  | cons c t ih =>
    rcases ih (chooseBest b c) with h | h
    · rw [List.foldl_cons, h]
      unfold chooseBest
      split
      · right; exact List.mem_cons_self ..
      · left; rfl
    · right; exact List.mem_cons_of_mem _ h

theorem mem_flmCands {a b : List α} {alo ahi blo bhi : Nat} {m : Nat × Nat × Nat}
    (h : m ∈ flmCands a b alo ahi blo bhi) :
    ∃ i j, alo ≤ i ∧ i < ahi ∧ blo ≤ j ∧ j < bhi ∧ m = (i, j, extLen a b ahi bhi i j) := by
  unfold flmCands at h
  rw [List.mem_flatMap] at h
  obtain ⟨i, hi, hm⟩ := h
  rw [List.mem_map] at hm
  obtain ⟨j, hj, hm⟩ := hm
  rw [List.mem_range'] at hi hj
  obtain ⟨ti, hti, hieq⟩ := hi
  obtain ⟨tj, htj, hjeq⟩ := hj
  exact ⟨i, j, by omega, by omega, by omega, by omega, hm.symm⟩

theorem extLen_le_left (a b : List α) (ahi bhi i j : Nat) :
    extLen a b ahi bhi i j ≤ ahi - i := by
  unfold extLen
  calc cpl ((a.drop i).take (ahi - i)) ((b.drop j).take (bhi - j))
      ≤ ((a.drop i).take (ahi - i)).length := cpl_le_left ..
    _ ≤ ahi - i := by rw [List.length_take]; omega

theorem extLen_le_right (a b : List α) (ahi bhi i j : Nat) :
    extLen a b ahi bhi i j ≤ bhi - j := by
  unfold extLen
  calc cpl ((a.drop i).take (ahi - i)) ((b.drop j).take (bhi - j))
      ≤ cpl ((b.drop j).take (bhi - j)) ((a.drop i).take (ahi - i)) + 0 := by
        clear * -
        generalize (a.drop i).take (ahi - i) = xs
        generalize (b.drop j).take (bhi - j) = ys
        induction xs generalizing ys with
        | nil => simp [cpl]
        | cons x xs ih =>
          cases ys with
          | nil => simp [cpl]
          | cons y ys =>
            by_cases h : x = y <;> simp [cpl, h, Eq.comm]
            exact ih ys
    _ ≤ ((b.drop j).take (bhi - j)).length + 0 := by
        simpa using cpl_le_left ((b.drop j).take (bhi - j)) ((a.drop i).take (ahi - i))
    _ ≤ bhi - j := by rw [List.length_take]; omega

theorem flm_bounds (a b : List α) (alo ahi blo bhi : Nat)
    (h : (flm a b alo ahi blo bhi).2.2 ≠ 0) :
    alo ≤ (flm a b alo ahi blo bhi).1 ∧
    (flm a b alo ahi blo bhi).1 + (flm a b alo ahi blo bhi).2.2 ≤ ahi ∧
    blo ≤ (flm a b alo ahi blo bhi).2.1 ∧
    (flm a b alo ahi blo bhi).2.1 + (flm a b alo ahi blo bhi).2.2 ≤ bhi := by
  rcases foldl_chooseBest_cases (flmCands a b alo ahi blo bhi) (alo, blo, 0) with hc | hc
  · rw [flm] at h; rw [hc] at h; simp at h
  · rw [flm] at h ⊢
    obtain ⟨i, j, h1, h2, h3, h4, heq⟩ := mem_flmCands hc
    rw [heq] at h ⊢
    dsimp only at h ⊢
    have ha := extLen_le_left a b ahi bhi i j
    have hb := extLen_le_right a b ahi bhi i j
    refine ⟨h1, by omega, h3, by omega⟩

theorem flm_slice (a b : List α) (alo ahi blo bhi : Nat) :
    (a.drop (flm a b alo ahi blo bhi).1).take (flm a b alo ahi blo bhi).2.2 =
    (b.drop (flm a b alo ahi blo bhi).2.1).take (flm a b alo ahi blo bhi).2.2 := by
  rcases foldl_chooseBest_cases (flmCands a b alo ahi blo bhi) (alo, blo, 0) with hc | hc
  · rw [flm, hc]; simp
  · rw [flm]
    obtain ⟨i, j, h1, h2, h3, h4, heq⟩ := mem_flmCands hc
    rw [heq]
    simp only
    have ha := extLen_le_left a b ahi bhi i j
    have hb := extLen_le_right a b ahi bhi i j
    have hs := cpl_take ((a.drop i).take (ahi - i)) ((b.drop j).take (bhi - j))
    unfold extLen at *
    set k := cpl ((a.drop i).take (ahi - i)) ((b.drop j).take (bhi - j)) with hk
    have h5 : ((a.drop i).take (ahi - i)).take k = (a.drop i).take k := by
      rw [List.take_take]; congr 1; omega
    have h6 : ((b.drop j).take (bhi - j)).take k = (b.drop j).take k := by
      rw [List.take_take]; congr 1; omega
    rw [h5, h6] at hs
    exact hs

theorem flm_trivial (a b : List α) (alo ahi blo bhi : Nat)
    (h : ahi ≤ alo ∨ bhi ≤ blo) : flm a b alo ahi blo bhi = (alo, blo, 0) := by
  have hc : flmCands a b alo ahi blo bhi = [] := by
    unfold flmCands
    rcases h with h | h
    · have : ahi - alo = 0 := by omega
      simp [this]
    · have : bhi - blo = 0 := by omega
      simp [this, List.flatMap]
  rw [flm, hc]; rfl

/-- One step of `get_matching_blocks`: recursively split the window around
the longest match (CPython drives the same recursion with an explicit
queue and then sorts; the in-order recursion yields the sorted list
directly).  The recursion is driven by an explicit bound on the combined
window size, which strictly shrinks at every split; `mblocksAux` below
instantiates the bound so that it never runs out. -/
def mblocksFuel (a b : List α) : Nat → Nat → Nat → Nat → Nat → List (Nat × Nat × Nat)
  | 0, _, _, _, _ => []
  | fuel + 1, alo, ahi, blo, bhi =>
    if (flm a b alo ahi blo bhi).2.2 = 0 then []
    else
      mblocksFuel a b fuel alo (flm a b alo ahi blo bhi).1 blo
          (flm a b alo ahi blo bhi).2.1 ++
        flm a b alo ahi blo bhi ::
          mblocksFuel a b fuel
            ((flm a b alo ahi blo bhi).1 + (flm a b alo ahi blo bhi).2.2) ahi
            ((flm a b alo ahi blo bhi).2.1 + (flm a b alo ahi blo bhi).2.2) bhi

/-- The recursive splitting of `get_matching_blocks` on a window. -/
def mblocksAux (a b : List α) (alo ahi blo bhi : Nat) : List (Nat × Nat × Nat) :=
  mblocksFuel a b ((ahi - alo) + (bhi - blo)) alo ahi blo bhi

theorem mblocksFuel_zero_of_le (a b : List α) (f alo ahi blo bhi : Nat)
    (h : (ahi - alo) + (bhi - blo) = 0) :
    mblocksFuel a b f alo ahi blo bhi = [] := by
  cases f with
  | zero => rfl
  | succ f =>
    rw [mblocksFuel, flm_trivial a b alo ahi blo bhi (Or.inl (by omega))]
    rfl

theorem mblocksFuel_stable (a b : List α) : ∀ (f1 f2 alo ahi blo bhi : Nat),
    (ahi - alo) + (bhi - blo) ≤ f1 → (ahi - alo) + (bhi - blo) ≤ f2 →
    mblocksFuel a b f1 alo ahi blo bhi = mblocksFuel a b f2 alo ahi blo bhi := by
  intro f1
  induction f1 with
  | zero =>
    intro f2 alo ahi blo bhi h1 h2
    rw [mblocksFuel_zero_of_le a b 0 alo ahi blo bhi (by omega),
      mblocksFuel_zero_of_le a b f2 alo ahi blo bhi (by omega)]
  | succ f1 ih =>
    intro f2 alo ahi blo bhi h1 h2
    cases f2 with
    | zero =>
      rw [mblocksFuel_zero_of_le a b (f1 + 1) alo ahi blo bhi (by omega),
        mblocksFuel_zero_of_le a b 0 alo ahi blo bhi (by omega)]
    | succ f2 =>
      rw [mblocksFuel, mblocksFuel]
      by_cases hk : (flm a b alo ahi blo bhi).2.2 = 0
      · rw [if_pos hk, if_pos hk]
      · rw [if_neg hk, if_neg hk]
        have hb := flm_bounds a b alo ahi blo bhi hk
        rw [ih f2 alo (flm a b alo ahi blo bhi).1 blo (flm a b alo ahi blo bhi).2.1
            (by omega) (by omega),
          ih f2 ((flm a b alo ahi blo bhi).1 + (flm a b alo ahi blo bhi).2.2) ahi
            ((flm a b alo ahi blo bhi).2.1 + (flm a b alo ahi blo bhi).2.2) bhi
            (by omega) (by omega)]

/-- The defining recursion of `mblocksAux`, free of the explicit bound. -/
theorem mblocksAux_eq (a b : List α) (alo ahi blo bhi : Nat) :
    mblocksAux a b alo ahi blo bhi =
      if (flm a b alo ahi blo bhi).2.2 = 0 then []
      else
        mblocksAux a b alo (flm a b alo ahi blo bhi).1 blo
            (flm a b alo ahi blo bhi).2.1 ++
          flm a b alo ahi blo bhi ::
            mblocksAux a b
              ((flm a b alo ahi blo bhi).1 + (flm a b alo ahi blo bhi).2.2) ahi
              ((flm a b alo ahi blo bhi).2.1 + (flm a b alo ahi blo bhi).2.2) bhi := by
  unfold mblocksAux
  cases hM : (ahi - alo) + (bhi - blo) with
  | zero =>
    rw [mblocksFuel_zero_of_le a b 0 alo ahi blo bhi hM,
      flm_trivial a b alo ahi blo bhi (Or.inl (by omega))]
    rfl
  | succ M =>
    rw [mblocksFuel]
    by_cases hk : (flm a b alo ahi blo bhi).2.2 = 0
    · rw [if_pos hk, if_pos hk]
    · rw [if_neg hk, if_neg hk]
      have hb := flm_bounds a b alo ahi blo bhi hk
      rw [mblocksFuel_stable a b M
          ((flm a b alo ahi blo bhi).1 - alo + ((flm a b alo ahi blo bhi).2.1 - blo))
          alo (flm a b alo ahi blo bhi).1 blo (flm a b alo ahi blo bhi).2.1
          (by omega) (by omega),
        mblocksFuel_stable a b M
          (ahi - ((flm a b alo ahi blo bhi).1 + (flm a b alo ahi blo bhi).2.2) +
            (bhi - ((flm a b alo ahi blo bhi).2.1 + (flm a b alo ahi blo bhi).2.2)))
          ((flm a b alo ahi blo bhi).1 + (flm a b alo ahi blo bhi).2.2) ahi
          ((flm a b alo ahi blo bhi).2.1 + (flm a b alo ahi blo bhi).2.2) bhi
          (by omega) (by omega)]

/-- CPython's adjacent-block merging pass in `get_matching_blocks`,
started from the sentinel `(0, 0, 0)`. -/
def mergeAdjAux : (Nat × Nat × Nat) → List (Nat × Nat × Nat) → List (Nat × Nat × Nat)
  | c, [] => if c.2.2 = 0 then [] else [c]
  | c, d :: rest =>
    if c.1 + c.2.2 = d.1 ∧ c.2.1 + c.2.2 = d.2.1 then
      mergeAdjAux (c.1, c.2.1, c.2.2 + d.2.2) rest
    else if c.2.2 = 0 then mergeAdjAux d rest
    else c :: mergeAdjAux d rest

/-- `SequenceMatcher.get_matching_blocks`. -/
def matching_blocks (a b : List α) : List (Nat × Nat × Nat) :=
  mergeAdjAux (0, 0, 0) (mblocksAux a b 0 a.length 0 b.length) ++
    [(a.length, b.length, 0)]

/-- Invariant of block lists: starting from positions `i`, `j`, the blocks
are in order, stay below the bounds `ahi`, `bhi`, and each block is a
genuine match of `a` against `b`. -/
def ChainB (a b : List α) : Nat → Nat → Nat → Nat → List (Nat × Nat × Nat) → Prop
  | _, _, _, _, [] => True
  | i, j, ahi, bhi, d :: rest =>
    i ≤ d.1 ∧ j ≤ d.2.1 ∧ d.1 + d.2.2 ≤ ahi ∧ d.2.1 + d.2.2 ≤ bhi ∧
      (a.drop d.1).take d.2.2 = (b.drop d.2.1).take d.2.2 ∧
      ChainB a b (d.1 + d.2.2) (d.2.1 + d.2.2) ahi bhi rest

omit [DecidableEq α] in
theorem chainB_mono {a b : List α} :
    ∀ {l : List (Nat × Nat × Nat)} {i j A B i2 j2 : Nat},
      ChainB a b i j A B l → i2 ≤ i → j2 ≤ j → ChainB a b i2 j2 A B l := by
  intro l
  induction l with
  | nil => intro _ _ _ _ _ _ h _ _; trivial
  | cons d rest _ =>
    intro i j A B i2 j2 h hi hj
    obtain ⟨h1, h2, h3, h4, h5, h6⟩ := h
    exact ⟨by omega, by omega, h3, h4, h5, h6⟩

omit [DecidableEq α] in
theorem chainB_append {a b : List α} :
    ∀ {l1 l2 : List (Nat × Nat × Nat)} {i j A B m n A2 B2 : Nat},
      ChainB a b i j A B l1 → ChainB a b m n A2 B2 l2 →
      i ≤ m → j ≤ n → A ≤ m → B ≤ n → A ≤ A2 → B ≤ B2 →
      ChainB a b i j A2 B2 (l1 ++ l2) := by
  intro l1
  induction l1 with
  | nil =>
    intro l2 i j A B m n A2 B2 _ h2 him hjn _ _ _ _
    exact chainB_mono h2 him hjn
  | cons d rest ih =>
    intro l2 i j A B m n A2 B2 h1 h2 him hjn hAm hBn hA2 hB2
    obtain ⟨g1, g2, g3, g4, g5, g6⟩ := h1
    exact ⟨g1, g2, by omega, by omega, g5,
      ih g6 h2 (by omega) (by omega) hAm hBn hA2 hB2⟩

theorem mblocks_chainB (a b : List α) :
    ∀ (N alo ahi blo bhi : Nat), (ahi - alo) + (bhi - blo) ≤ N →
      ChainB a b alo blo ahi bhi (mblocksAux a b alo ahi blo bhi) := by
  intro N
  induction N with
  | zero =>
    intro alo ahi blo bhi hN
    rw [mblocksAux_eq]
    split
    · trivial
    · rename_i hk
      have hb := flm_bounds a b alo ahi blo bhi hk
      omega
  | succ N ih =>
    intro alo ahi blo bhi hN
    rw [mblocksAux_eq]
    split
    · trivial
    · rename_i hk
      have hb := flm_bounds a b alo ahi blo bhi hk
      have hs := flm_slice a b alo ahi blo bhi
      have hleft := ih alo (flm a b alo ahi blo bhi).1 blo
        (flm a b alo ahi blo bhi).2.1 (by omega)
      have hright := ih ((flm a b alo ahi blo bhi).1 + (flm a b alo ahi blo bhi).2.2)
        ahi ((flm a b alo ahi blo bhi).2.1 + (flm a b alo ahi blo bhi).2.2) bhi (by omega)
      exact chainB_append hleft
        ⟨le_refl _, le_refl _, by omega, by omega, hs, hright⟩
        (by omega) (by omega) (le_refl _) (le_refl _) (by omega) (by omega)

omit [DecidableEq α] in
theorem mergeAdj_chainB {a b : List α} :
    ∀ (l : List (Nat × Nat × Nat)) (c : Nat × Nat × Nat) (A B : Nat),
      (a.drop c.1).take c.2.2 = (b.drop c.2.1).take c.2.2 →
      c.1 + c.2.2 ≤ A → c.2.1 + c.2.2 ≤ B →
      ChainB a b (c.1 + c.2.2) (c.2.1 + c.2.2) A B l →
      ChainB a b c.1 c.2.1 A B (mergeAdjAux c l) := by
  intro l
  induction l with
  | nil =>
    intro c A B hs hA hB _
    rw [mergeAdjAux]
    split
    · trivial
    · exact ⟨le_refl _, le_refl _, hA, hB, hs, trivial⟩
  | cons d rest ih =>
    intro c A B hs hA hB hch
    obtain ⟨h1, h2, h3, h4, h5, h6⟩ := hch
    rw [mergeAdjAux]
    split
    · rename_i hadj
      obtain ⟨ha1, ha2⟩ := hadj
      refine ih (c.1, c.2.1, c.2.2 + d.2.2) A B ?_ (by dsimp only; omega)
        (by dsimp only; omega) ?_
      · dsimp only
        rw [List.take_add (a.drop c.1), List.take_add (b.drop c.2.1),
          List.drop_drop, List.drop_drop, ha1, ha2, hs, h5]
      · dsimp only
        have e1 : c.1 + (c.2.2 + d.2.2) = d.1 + d.2.2 := by omega
        have e2 : c.2.1 + (c.2.2 + d.2.2) = d.2.1 + d.2.2 := by omega
        rw [e1, e2]
        exact h6
    · split
      · rename_i hne hk0
        exact chainB_mono (ih d A B h5 h3 h4 h6) (by omega) (by omega)
      · rename_i hne hk0
        exact ⟨le_refl _, le_refl _, hA, hB, hs,
          chainB_mono (ih d A B h5 h3 h4 h6) h1 h2⟩

omit [DecidableEq α] in
theorem chainB_concat_term {a b : List α} :
    ∀ (l : List (Nat × Nat × Nat)) (i j : Nat),
      ChainB a b i j a.length b.length l → i ≤ a.length → j ≤ b.length →
      ChainB a b i j a.length b.length (l ++ [(a.length, b.length, 0)]) := by
  intro l
  induction l with
  | nil =>
    intro i j _ hi hj
    exact ⟨hi, hj, by simp, by simp, by simp, trivial⟩
  | cons d rest ih =>
    intro i j h hi hj
    obtain ⟨h1, h2, h3, h4, h5, h6⟩ := h
    exact ⟨h1, h2, h3, h4, h5, ih _ _ h6 h3 h4⟩

theorem matching_blocks_chainB (a b : List α) :
    ChainB a b 0 0 a.length b.length (matching_blocks a b) := by
  unfold matching_blocks
  refine chainB_concat_term _ 0 0 ?_ (Nat.zero_le _) (Nat.zero_le _)
  refine mergeAdj_chainB _ (0, 0, 0) a.length b.length (by simp)
    (by simp) (by simp) ?_
  simpa using mblocks_chainB a b (a.length + b.length) 0 a.length 0 b.length (by omega)

end SeqMatcher

/-- Opcode tags of `SequenceMatcher.get_opcodes`. -/
inductive Tag where
  | replace
  | delete
  | insertionTag
  | equal
deriving DecidableEq

/-- One opcode `(tag, i1, i2, j1, j2)` of `get_opcodes`. -/
structure Opcode where
  tag : Tag
  a1 : Nat
  a2 : Nat
  b1 : Nat
  b2 : Nat
deriving DecidableEq

/-- The loop body of `get_opcodes`, walking the matching blocks while
tracking the current positions `i`, `j`. -/
def opcodesAux : Nat → Nat → List (Nat × Nat × Nat) → List Opcode
  | _, _, [] => []
  | i, j, d :: rest =>
    (if i < d.1 ∧ j < d.2.1 then [⟨.replace, i, d.1, j, d.2.1⟩]
     else if i < d.1 then [⟨.delete, i, d.1, j, d.2.1⟩]
     else if j < d.2.1 then [⟨.insertionTag, i, d.1, j, d.2.1⟩]
     else []) ++
    (if d.2.2 ≠ 0 then [⟨.equal, d.1, d.1 + d.2.2, d.2.1, d.2.1 + d.2.2⟩] else []) ++
    opcodesAux (d.1 + d.2.2) (d.2.1 + d.2.2) rest

/-- `SequenceMatcher.get_opcodes`. -/
def get_opcodes {α : Type} [DecidableEq α] (a b : List α) : List Opcode :=
  opcodesAux 0 0 (matching_blocks a b)

theorem gap_all_equal {i j : Nat} {d : Nat × Nat × Nat} {rest : List (Nat × Nat × Nat)}
    (hall : ∀ c ∈ opcodesAux i j (d :: rest), c.tag = Tag.equal)
    (h1 : i ≤ d.1) (h2 : j ≤ d.2.1) : i = d.1 ∧ j = d.2.1 := by
  by_cases hia : i < d.1
  · exfalso
    by_cases hjb : j < d.2.1
    · have hx := hall ⟨Tag.replace, i, d.1, j, d.2.1⟩
        (by simp [opcodesAux, hia, hjb])
      exact Tag.noConfusion hx
    · have hx := hall ⟨Tag.delete, i, d.1, j, d.2.1⟩
        (by simp [opcodesAux, hia, hjb])
      exact Tag.noConfusion hx
  · by_cases hjb : j < d.2.1
    · exfalso
      have hx := hall ⟨Tag.insertionTag, i, d.1, j, d.2.1⟩
        (by simp [opcodesAux, hia, hjb])
      exact Tag.noConfusion hx
    · omega

theorem opcodesAux_all_equal {α : Type} [DecidableEq α] (a b : List α) :
    ∀ (l : List (Nat × Nat × Nat)) (i j : Nat),
      ChainB a b i j a.length b.length (l ++ [(a.length, b.length, 0)]) →
      (∀ c ∈ opcodesAux i j (l ++ [(a.length, b.length, 0)]), c.tag = Tag.equal) →
      a.drop i = b.drop j := by
  intro l
  induction l with
  | nil =>
    intro i j hch hall
    obtain ⟨h1, h2, _, _, _, _⟩ := hch
    obtain ⟨hi, hj⟩ := gap_all_equal (by simpa using hall) (by simpa using h1)
      (by simpa using h2)
    simp only at hi hj
    subst hi; subst hj
    rw [List.drop_length, List.drop_length]
  | cons d l ih =>
    intro i j hch hall
    obtain ⟨h1, h2, h3, h4, h5, h6⟩ := hch
    obtain ⟨hi, hj⟩ := gap_all_equal (by simpa using hall) h1 h2
    subst hi; subst hj
    have heq := ih (d.1 + d.2.2) (d.2.1 + d.2.2) h6 (by
      intro c hc
      refine hall c ?_
      simp only [List.cons_append, opcodesAux, List.mem_append]
      exact Or.inr hc)
    calc a.drop d.1
        = (a.drop d.1).take d.2.2 ++ (a.drop d.1).drop d.2.2 :=
          (List.take_append_drop _ _).symm
      _ = (b.drop d.2.1).take d.2.2 ++ (a.drop d.1).drop d.2.2 := by rw [h5]
      _ = (b.drop d.2.1).take d.2.2 ++ (b.drop d.2.1).drop d.2.2 := by
          rw [List.drop_drop, List.drop_drop, heq]
      _ = b.drop d.2.1 := List.take_append_drop _ _

/-- If every opcode of `get_opcodes` is an `equal`, the two sequences are
equal.  (Contrapositive: unequal sequences always produce a non-`equal`
opcode.) -/
theorem eq_of_opcodes_all_equal {α : Type} [DecidableEq α] {a b : List α}
    (hall : ∀ c ∈ get_opcodes a b, c.tag = Tag.equal) : a = b := by
  have h := opcodesAux_all_equal a b
    (mergeAdjAux (0, 0, 0) (mblocksAux a b 0 a.length 0 b.length)) 0 0
    (matching_blocks_chainB a b) hall
  simpa using h

/-- Trim an opcode to at most `n` trailing context lines
(`tag, i1, min(i2, i1+n), j1, min(j2, j1+n)`). -/
def trimEnd (n : Nat) (c : Opcode) : Opcode :=
  ⟨c.tag, c.a1, min c.a2 (c.a1 + n), c.b1, min c.b2 (c.b1 + n)⟩

/-- Trim an opcode to at most `n` leading context lines
(`tag, max(i1, i2-n), i2, max(j1, j2-n), j2`). -/
def trimStart (n : Nat) (c : Opcode) : Opcode :=
  ⟨c.tag, max c.a1 (c.a2 - n), c.a2, max c.b1 (c.b2 - n), c.b2⟩

/-- `get_grouped_opcodes`: fix up a leading `equal` opcode. -/
def adjHead (n : Nat) : List Opcode → List Opcode
  | [] => []
  | c :: rest => (if c.tag = .equal then trimStart n c else c) :: rest

/-- `get_grouped_opcodes`: fix up a trailing `equal` opcode. -/
def adjTail (n : Nat) : List Opcode → List Opcode
  | [] => []
  | [c] => [if c.tag = .equal then trimEnd n c else c]
  | c :: rest => c :: adjTail n rest

/-- The grouping loop of `get_grouped_opcodes`: split the opcode stream
into hunk groups at `equal` runs longer than `2n`, dropping a final group
consisting of a single `equal` opcode. -/
def groupsAux (n : Nat) : List Opcode → List Opcode → List (List Opcode)
  | [], g =>
    match g with
    | [] => []
    | [c] => if c.tag = .equal then [] else [[c]]
    | _ => [g]
  | c :: rest, g =>
    if c.tag = .equal ∧ 2 * n < c.a2 - c.a1 then
      (g ++ [trimEnd n c]) :: groupsAux n rest [trimStart n c]
    else groupsAux n rest (g ++ [c])

/-- `SequenceMatcher.get_grouped_opcodes` with context size `n`. -/
def get_grouped_opcodes {α : Type} [DecidableEq α] (n : Nat) (a b : List α) :
    List (List Opcode) :=
  groupsAux n
    (adjTail n (adjHead n
      (if (get_opcodes a b).isEmpty then [⟨.equal, 0, 1, 0, 1⟩]
       else get_opcodes a b))) []

theorem foldl_chooseBest_const (l : List (Nat × Nat × Nat)) (m : Nat × Nat × Nat)
    (h : ∀ c ∈ l, c.2.2 ≤ m.2.2) : l.foldl chooseBest m = m := by
  induction l with
  | nil => rfl
  | cons c t ih =>
    rw [List.foldl_cons]
    have hc : chooseBest m c = m := by
      unfold chooseBest
      rw [if_neg]
      have := h c (List.mem_cons_self ..)
      omega
    rw [hc]
    exact ih fun d hd => h d (List.mem_cons_of_mem _ hd)

theorem flm_self {α : Type} [DecidableEq α] (a : List α) (h : a ≠ []) :
    flm a a 0 a.length 0 a.length = (0, 0, a.length) := by
  have hpos : 0 < a.length := List.length_pos.mpr h
  have hext : extLen a a a.length a.length 0 0 = a.length := by
    unfold extLen
    simp [cpl_self]
  have hbound : ∀ c ∈ flmCands a a 0 a.length 0 a.length, c.2.2 ≤ a.length := by
    intro c hc
    obtain ⟨i, j, _, _, _, _, heq⟩ := mem_flmCands hc
    rw [heq]
    have := extLen_le_left a a a.length a.length i j
    simp only
    omega
  obtain ⟨m, hm⟩ : ∃ m, a.length = m + 1 := ⟨a.length - 1, by omega⟩
  obtain ⟨rest, hrest⟩ :
      ∃ rest, flmCands a a 0 a.length 0 a.length = (0, 0, a.length) :: rest := by
    rw [flmCands, Nat.sub_zero, hm, List.range'_succ, List.flatMap_cons,
      List.map_cons, List.cons_append, ← hm, hext]
    exact ⟨_, rfl⟩
  have hsub : ∀ c ∈ rest, c ∈ flmCands a a 0 a.length 0 a.length := by
    intro c hc
    rw [hrest]
    exact List.mem_cons_of_mem _ hc
  rw [flm, hrest, List.foldl_cons]
  have hcb : chooseBest (0, 0, 0) (0, 0, a.length) = (0, 0, a.length) := by
    unfold chooseBest
    rw [if_pos]
    simpa using hpos
  rw [hcb]
  exact foldl_chooseBest_const _ _ fun c hc => hbound c (hsub c hc)

theorem mblocksAux_nil {α : Type} [DecidableEq α] (a b : List α)
    (alo ahi blo bhi : Nat) (h : ahi ≤ alo ∨ bhi ≤ blo) :
    mblocksAux a b alo ahi blo bhi = [] := by
  rw [mblocksAux_eq, flm_trivial a b alo ahi blo bhi h]
  simp

theorem mblocks_self {α : Type} [DecidableEq α] (a : List α) :
    mblocksAux a a 0 a.length 0 a.length =
      if a.length = 0 then [] else [(0, 0, a.length)] := by
  by_cases h0 : a.length = 0
  · rw [if_pos h0]
    exact mblocksAux_nil a a 0 a.length 0 a.length (Or.inl (by omega))
  · rw [if_neg h0]
    have hne : a ≠ [] := fun h => h0 (by rw [h]; rfl)
    rw [mblocksAux_eq, flm_self a hne]
    rw [if_neg (by simpa using h0)]
    simp only
    rw [Nat.zero_add, mblocksAux_nil a a 0 0 0 0 (Or.inl (le_refl _)),
      mblocksAux_nil a a a.length a.length a.length a.length (Or.inl (le_refl _))]
    rfl

theorem matching_blocks_self {α : Type} [DecidableEq α] (a : List α) :
    matching_blocks a a =
      if a.length = 0 then [(0, 0, 0)]
      else [(0, 0, a.length), (a.length, a.length, 0)] := by
  unfold matching_blocks
  rw [mblocks_self]
  by_cases h0 : a.length = 0
  · rw [if_pos h0, if_pos h0, h0]
    rfl
  · rw [if_neg h0, if_neg h0]
    show mergeAdjAux (0, 0, 0) [(0, 0, a.length)] ++ _ = _
    rw [mergeAdjAux, if_pos (by simp)]
    rw [mergeAdjAux, if_neg (by simpa using h0)]
    simp

theorem get_opcodes_self {α : Type} [DecidableEq α] (a : List α) :
    get_opcodes a a =
      if a.length = 0 then [] else [⟨Tag.equal, 0, a.length, 0, a.length⟩] := by
  unfold get_opcodes
  rw [matching_blocks_self]
  by_cases h0 : a.length = 0
  · rw [if_pos h0, if_pos h0]
    rfl
  · rw [if_neg h0, if_neg h0]
    show opcodesAux 0 0 [(0, 0, a.length), (a.length, a.length, 0)] = _
    rw [opcodesAux, opcodesAux, opcodesAux]
    simp [h0, Nat.pos_of_ne_zero h0]

theorem get_grouped_opcodes_self {α : Type} [DecidableEq α] (a : List α) :
    get_grouped_opcodes 3 a a = [] := by
  unfold get_grouped_opcodes
  rw [get_opcodes_self]
  by_cases h0 : a.length = 0
  · rw [if_pos h0]
    rfl
  · rw [if_neg h0]
    rw [if_neg (by simp)]
    simp [adjHead, adjTail, trimStart, trimEnd, groupsAux]
    omega

theorem get_grouped_opcodes_delete {α : Type} [DecidableEq α] (a : List α)
    (h : a ≠ []) :
    get_grouped_opcodes 3 a ([] : List α) =
      [[⟨Tag.delete, 0, a.length, 0, 0⟩]] := by
  have h0 : a.length ≠ 0 := by simpa using h
  have hop : get_opcodes a ([] : List α) = [⟨Tag.delete, 0, a.length, 0, 0⟩] := by
    unfold get_opcodes matching_blocks
    simp only [List.length_nil]
    rw [mblocksAux_nil a [] 0 a.length 0 0 (Or.inr (le_refl _))]
    show opcodesAux 0 0 [(a.length, 0, 0)] = _
    simp [opcodesAux, Nat.pos_of_ne_zero h0]
  unfold get_grouped_opcodes
  rw [hop, if_neg (by simp)]
  simp [adjHead, adjTail, groupsAux]

theorem adjHead_map_tag (n : Nat) (l : List Opcode) :
    (adjHead n l).map Opcode.tag = l.map Opcode.tag := by
  cases l with
  | nil => rfl
  | cons c rest =>
    rw [adjHead]
    split
    · rfl
    · rfl

theorem adjTail_map_tag (n : Nat) : ∀ l : List Opcode,
    (adjTail n l).map Opcode.tag = l.map Opcode.tag := by
  intro l
  induction l with
  | nil => rfl
  | cons c rest ih =>
    cases rest with
    | nil =>
      rw [adjTail]
      split
      · rfl
      · rfl
    | cons d rest2 =>
      rw [adjTail, List.map_cons, List.map_cons, ih] <;> simp

theorem groupsAux_ne_nil (n : Nat) : ∀ (l g : List Opcode),
    ((∃ c ∈ l, c.tag ≠ Tag.equal) ∨ (∃ c ∈ g, c.tag ≠ Tag.equal)) →
    groupsAux n l g ≠ [] := by
  intro l
  induction l with
  | nil =>
    intro g hg
    have hmem : ∃ c ∈ g, c.tag ≠ Tag.equal := by
      rcases hg with ⟨c, hc, _⟩ | h
      · cases hc
      · exact h
    obtain ⟨c, hc, hne⟩ := hmem
    match g, hc with
    | [c1], hc =>
      rw [groupsAux]
      have : c = c1 := by simpa using hc
      rw [if_neg (this ▸ hne)]
      simp
    | c1 :: c2 :: t, _ =>
      rw [groupsAux] <;> simp
  | cons c rest ih =>
    intro g hg
    rw [groupsAux]
    split
    · simp
    · refine ih (g ++ [c]) ?_
      rcases hg with ⟨d, hd, hne⟩ | ⟨d, hd, hne⟩
      · rcases List.mem_cons.mp hd with rfl | hd2
        · exact Or.inr ⟨d, List.mem_append_right _ (List.mem_singleton.mpr rfl), hne⟩
        · exact Or.inl ⟨d, hd2, hne⟩
      · exact Or.inr ⟨d, List.mem_append_left _ hd, hne⟩

theorem get_grouped_opcodes_ne_nil {α : Type} [DecidableEq α] {a b : List α}
    (hab : a ≠ b) : get_grouped_opcodes 3 a b ≠ [] := by
  obtain ⟨c, hc, hne⟩ : ∃ c ∈ get_opcodes a b, c.tag ≠ Tag.equal := by
    by_contra hall
    push_neg at hall
    exact hab (eq_of_opcodes_all_equal hall)
  have hemp : (get_opcodes a b).isEmpty = false := by
    cases h : get_opcodes a b with
    | nil => rw [h] at hc; cases hc
    | cons x t => rfl
  unfold get_grouped_opcodes
  rw [hemp]
  simp only [Bool.false_eq_true, if_false]
  refine groupsAux_ne_nil 3 _ [] (Or.inl ?_)
  have htag : c.tag ∈ (adjTail 3 (adjHead 3 (get_opcodes a b))).map Opcode.tag := by
    rw [adjTail_map_tag, adjHead_map_tag]
    exact List.mem_map_of_mem _ hc
  obtain ⟨d, hd, hdt⟩ := List.mem_map.mp htag
  exact ⟨d, hd, by rw [hdt]; exact hne⟩

/-- `difflib._format_range_unified`. -/
def fmtRange (start stop : Nat) : List Nat :=
  if stop - start = 1 then natCodes (start + 1)
  else
    natCodes (if stop - start = 0 then start else start + 1) ++
      codes "," ++ natCodes (stop - start)

/-- The `@@ -… +… @@` header of one hunk group. -/
def hunkHeader (g : List Opcode) : List Nat :=
  match g.head?, g.getLast? with
  | some f, some l =>
    codes "@@ -" ++ fmtRange f.a1 l.a2 ++ codes " +" ++ fmtRange f.b1 l.b2 ++
      codes " @@"
  | _, _ => []

/-- The `-`/`+`/space-prefixed content lines contributed by one opcode.
Lines are lists of code points; a line of file `a` tagged for deletion
becomes `"-" ++ line`, and so on, following `unified_diff`. -/
def opLines (a b : List (List Nat)) (c : Opcode) : List (List Nat) :=
  match c.tag with
  | .equal => ((a.drop c.a1).take (c.a2 - c.a1)).map fun l => 32 :: l
  | .delete => ((a.drop c.a1).take (c.a2 - c.a1)).map fun l => 45 :: l
  | .insertionTag => ((b.drop c.b1).take (c.b2 - c.b1)).map fun l => 43 :: l
  | .replace =>
    (((a.drop c.a1).take (c.a2 - c.a1)).map fun l => 45 :: l) ++
      ((b.drop c.b1).take (c.b2 - c.b1)).map fun l => 43 :: l

/-- `difflib.unified_diff(a, b, fromfile, tofile, lineterm="")` as the
list of emitted lines (code-point lists); the `---`/`+++` headers appear
exactly when at least one group exists. -/
def unified_diff (fromfile tofile : List Nat) (a b : List (List Nat)) :
    List (List Nat) :=
  match get_grouped_opcodes 3 a b with
  | [] => []
  | gs =>
    (codes "--- " ++ fromfile) :: (codes "+++ " ++ tofile) ::
      gs.flatMap fun g => hunkHeader g :: g.flatMap (opLines a b)

theorem unified_diff_self (f t : List Nat) (a : List (List Nat)) :
    unified_diff f t a a = [] := by
  unfold unified_diff
  rw [get_grouped_opcodes_self]

theorem unified_diff_shape (f t : List Nat) {a b : List (List Nat)} (hab : a ≠ b) :
    ∃ r, unified_diff f t a b =
      (codes "--- " ++ f) :: (codes "+++ " ++ t) :: r := by
  unfold unified_diff
  cases hg : get_grouped_opcodes 3 a b with
  | nil => exact absurd hg (get_grouped_opcodes_ne_nil hab)
  | cons g gs => exact ⟨_, rfl⟩

theorem unified_diff_delete (f t : List Nat) (a : List (List Nat)) (h : a ≠ []) :
    unified_diff f t a [] =
      (codes "--- " ++ f) :: (codes "+++ " ++ t) ::
        (codes "@@ -" ++ fmtRange 0 a.length ++ codes " +" ++ fmtRange 0 0 ++
          codes " @@") ::
        a.map (fun l => 45 :: l) := by
  unfold unified_diff
  rw [get_grouped_opcodes_delete a h]
  simp [hunkHeader, opLines]

theorem joinNL_cons_cons_ne_nil (x y : List Nat) (r : List (List Nat)) :
    joinNL (x :: y :: r) ≠ [] := by
  rw [joinNL] <;> simp

/-! ### `diff_generator.py` -/

/-- The line list of an optional file: `generate_diff` treats a
nonexistent path as empty content (`os.path.exists` guard). -/
def olines : Option (List (List Nat)) → List (List Nat)
  | none => []
  | some l => l

/-- `generate_diff(local_file, upstream_file)`: read the two files as line
sequences (a missing file contributes no lines), run
`difflib.unified_diff` labelled `local/…` and `upstream/…`, and join the
result with newlines.  A file is modelled by its `readlines()` line list
(`none` when the path does not exist); the name arguments carry
`os.path.basename` of the respective path. -/
def generate_diff (localName upstreamName : List Nat)
    (localLines upstreamLines : Option (List (List Nat))) : List Nat :=
  joinNL (unified_diff (codes "local/" ++ localName)
    (codes "upstream/" ++ upstreamName) (olines localLines) (olines upstreamLines))

theorem generate_diff_eq_nil_iff (ln un : List Nat)
    (la ub : Option (List (List Nat))) :
    generate_diff ln un la ub = [] ↔ olines la = olines ub := by
  constructor
  · intro h
    by_contra hne
    obtain ⟨r, hr⟩ := unified_diff_shape (codes "local/" ++ ln)
      (codes "upstream/" ++ un) hne
    unfold generate_diff at h
    rw [hr] at h
    exact joinNL_cons_cons_ne_nil _ _ _ h
  · intro h
    unfold generate_diff
    rw [h, unified_diff_self]
    rfl

/-- Continuation byte `0x80`–`0xBF`. -/
def utf8Cont (c : Nat) : Bool := decide (128 ≤ c ∧ c ≤ 191)

/-- Admissible first continuation byte after a three-byte lead, per the
strict UTF-8 decoder (excludes overlong forms and surrogates). -/
def utf8First3 (b c1 : Nat) : Bool :=
  decide ((b = 224 ∧ 160 ≤ c1 ∧ c1 ≤ 191) ∨ (b = 237 ∧ 128 ≤ c1 ∧ c1 ≤ 159) ∨
    (b ≠ 224 ∧ b ≠ 237 ∧ 128 ≤ c1 ∧ c1 ≤ 191))

/-- Admissible first continuation byte after a four-byte lead, per the
strict UTF-8 decoder (excludes overlong forms and values above U+10FFFF). -/
def utf8First4 (b c1 : Nat) : Bool :=
  decide ((b = 240 ∧ 144 ≤ c1 ∧ c1 ≤ 191) ∨ (b = 244 ∧ 128 ≤ c1 ∧ c1 ≤ 143) ∨
    (b ≠ 240 ∧ b ≠ 244 ∧ 128 ≤ c1 ∧ c1 ≤ 191))

/-- `bytes.decode("utf-8")` succeeds: RFC 3629 validity as checked by
CPython's strict decoder. -/
def utf8Valid : List Nat → Bool
  | [] => true
  | b :: rest =>
    if b ≤ 127 then utf8Valid rest
    else if 194 ≤ b ∧ b ≤ 223 then
      match rest with
      | c1 :: r => utf8Cont c1 && utf8Valid r
      | [] => false
    else if 224 ≤ b ∧ b ≤ 239 then
      match rest with
      | c1 :: c2 :: r => utf8First3 b c1 && utf8Cont c2 && utf8Valid r
      | _ => false
    else if 240 ≤ b ∧ b ≤ 244 then
      match rest with
      | c1 :: c2 :: c3 :: r =>
        utf8First4 b c1 && utf8Cont c2 && utf8Cont c3 && utf8Valid r
      | _ => false
    else false

/-- `bytes.decode("utf-8", errors="replace")`: code points of the decoded
text, one `U+FFFD` (65533) per maximal ill-formed subpart, as CPython's
`replace` error handler produces. -/
def decodeReplace : List Nat → List Nat
  | [] => []
  | b :: rest =>
    if b ≤ 127 then b :: decodeReplace rest
    else if 194 ≤ b ∧ b ≤ 223 then
      match rest with
      | c1 :: r =>
        if utf8Cont c1 then ((b - 192) * 64 + (c1 - 128)) :: decodeReplace r
        else 65533 :: decodeReplace (c1 :: r)
      | [] => [65533]
    else if 224 ≤ b ∧ b ≤ 239 then
      match rest with
      | c1 :: c2 :: r =>
        if utf8First3 b c1 then
          if utf8Cont c2 then
            ((b - 224) * 4096 + (c1 - 128) * 64 + (c2 - 128)) :: decodeReplace r
          else 65533 :: decodeReplace (c2 :: r)
        else 65533 :: decodeReplace (c1 :: c2 :: r)
      | [c1] => if utf8First3 b c1 then [65533] else 65533 :: decodeReplace [c1]
      | [] => [65533]
    else if 240 ≤ b ∧ b ≤ 244 then
      match rest with
      | c1 :: c2 :: c3 :: r =>
        if utf8First4 b c1 then
          if utf8Cont c2 then
            if utf8Cont c3 then
              ((b - 240) * 262144 + (c1 - 128) * 4096 + (c2 - 128) * 64 +
                (c3 - 128)) :: decodeReplace r
            else 65533 :: decodeReplace (c3 :: r)
          else 65533 :: decodeReplace (c2 :: c3 :: r)
        else 65533 :: decodeReplace (c1 :: c2 :: c3 :: r)
      | [c1, c2] =>
        if utf8First4 b c1 then
          if utf8Cont c2 then [65533] else 65533 :: decodeReplace [c2]
        else 65533 :: decodeReplace [c1, c2]
      | [c1] => if utf8First4 b c1 then [65533] else 65533 :: decodeReplace [c1]
      | [] => [65533]
    else 65533 :: decodeReplace rest

/-- Universal-newline translation applied by text-mode reads:
`\r\n` and `\r` become `\n`. -/
def translateNL : List Nat → List Nat
  | [] => []
  | 13 :: 10 :: r => 10 :: translateNL r
  | 13 :: r => 10 :: translateNL r
  | c :: r => c :: translateNL r

/-- The loop of `readlines()`: split after every `\n`, keeping it. -/
def splitLinesAux : List Nat → List Nat → List (List Nat)
  | acc, [] => if acc.isEmpty then [] else [acc.reverse]
  | acc, 10 :: r => (10 :: acc).reverse :: splitLinesAux [] r
  | acc, c :: r => splitLinesAux (c :: acc) r

/-- `open(path, "r", errors="replace").readlines()` on a byte string. -/
def linesOfBytes (bs : List Nat) : List (List Nat) :=
  splitLinesAux [] (translateNL (decodeReplace bs))

/-- `open(path, "r", errors="replace").read()` on a byte string. -/
def textOfBytes (bs : List Nat) : List Nat :=
  translateNL (decodeReplace bs)

/-- `is_binary_file(filepath)`: `none` models any `OSError` while opening
or reading (missing file, permission denied), which the source treats as
binary; otherwise the first 8192 bytes are checked for a null byte and
for strict UTF-8 decodability. -/
def is_binary_file : Option (List Nat) → Bool
  | none => true
  | some bs => (bs.take 8192).contains 0 || !utf8Valid (bs.take 8192)

/-- Python string comparison on code-point lists (`s < t` or `s = t`). -/
def lexLe : List Char → List Char → Bool
  | [], _ => true
  | _ :: _, [] => false
  | a :: as, b :: bs =>
    if a.toNat < b.toNat then true
    else if b.toNat < a.toNat then false
    else lexLe as bs

/-- `s <= t` for Python strings. -/
def strLeB (s t : String) : Bool := lexLe s.data t.data

/-- Insertion into a sorted list, used to model Python `sorted`. -/
def insertSorted (x : String) : List String → List String
  | [] => [x]
  | y :: ys => if strLeB x y then x :: y :: ys else y :: insertSorted x ys

/-- Python `sorted` on a list of distinct relative paths (as a function of
the input set it agrees with any comparison sort). -/
def sortS (l : List String) : List String := l.foldr insertSorted []

/-- `os.path.basename` (final path component). -/
def lastComponent (l : List Char) : List Char :=
  l.foldl (fun acc c => if c = '/' then [] else acc ++ [c]) []

/-- Code points of `os.path.basename(f)`. -/
def basenameCodes (f : String) : List Nat := (lastComponent f.data).map Char.toNat

/-- The `status` field of a directory-diff record. -/
inductive Status where
  | modified
  | new
  | deleted
  | binary_changed
  | binary_new
deriving DecidableEq

/-- One record returned by `diff_directories`: relative path, status and
diff payload (unified diff or descriptive note, as code points). -/
structure DiffItem where
  file : String
  status : Status
  diff : List Nat
deriving DecidableEq

/-- Association-list lookup of a relative path in a directory tree
(`Tree` entries are relative path / byte content pairs). -/
def lookupT (t : List (String × List Nat)) (f : String) : Option (List Nat) :=
  (t.find? fun e => e.1 == f).map (·.2)

/-- The body of `diff_directories` for a path present in both trees:
binary comparison by size then content, else a text diff, with no record
when nothing differs. -/
def commonEntry (lt ut : List (String × List Nat)) (f : String) : List DiffItem :=
  match lookupT lt f, lookupT ut f with
  | some lc, some uc =>
    if is_binary_file (some lc) || is_binary_file (some uc) then
      if lc.length ≠ uc.length then
        [⟨f, .binary_changed, codes "Binary file changed: " ++ natCodes lc.length ++
          codes " bytes → " ++ natCodes uc.length ++ codes " bytes"⟩]
      else if lc ≠ uc then
        [⟨f, .binary_changed, codes "Binary file changed (same size: " ++
          natCodes lc.length ++ codes " bytes)"⟩]
      else []
    else
      if generate_diff (basenameCodes f) (basenameCodes f)
          (some (linesOfBytes lc)) (some (linesOfBytes uc)) ≠ [] then
        [⟨f, .modified, generate_diff (basenameCodes f) (basenameCodes f)
          (some (linesOfBytes lc)) (some (linesOfBytes uc))⟩]
      else []
  | _, _ => []

/-- The body of `diff_directories` for a path present only upstream. -/
def newEntry (ut : List (String × List Nat)) (f : String) : List DiffItem :=
  match lookupT ut f with
  | some uc =>
    if is_binary_file (some uc) then
      [⟨f, .binary_new, codes "New binary file: " ++ natCodes uc.length ++
        codes " bytes"⟩]
    else
      [⟨f, .new, codes "+++ new file: " ++ codes f ++ 10 :: textOfBytes uc⟩]
  | none => []

/-- `diff_directories(local_dir, upstream_dir)`: a tree is the finite map
from relative file paths (as produced by `os.walk`/`os.path.relpath`) to
byte contents.  The source emits the sorted files common to both trees,
then the sorted upstream-only files, then the sorted local-only files. -/
def diff_directories (localT upstreamT : List (String × List Nat)) :
    List DiffItem :=
  (sortS ((localT.map Prod.fst).filter fun f =>
      (upstreamT.map Prod.fst).contains f)).flatMap
    (commonEntry localT upstreamT) ++
  (sortS ((upstreamT.map Prod.fst).filter fun f =>
      !(localT.map Prod.fst).contains f)).flatMap (newEntry upstreamT) ++
  (sortS ((localT.map Prod.fst).filter fun f =>
      !(upstreamT.map Prod.fst).contains f)).map
    fun f => ⟨f, .deleted, codes "--- deleted: " ++ codes f⟩

theorem lexLe_total : ∀ as bs : List Char, lexLe as bs = true ∨ lexLe bs as = true := by
  intro as
  induction as with
  | nil => intro bs; left; rfl
  | cons a as ih =>
    intro bs
    cases bs with
    | nil => right; rfl
    | cons b bs =>
      rw [lexLe, lexLe]
      by_cases h1 : a.toNat < b.toNat
      · left; rw [if_pos h1]
      · by_cases h2 : b.toNat < a.toNat
        · right; rw [if_pos h2]
        · rw [if_neg h1, if_neg h2, if_neg h2, if_neg h1]
          exact ih bs

theorem lexLe_trans : ∀ as bs cs : List Char,
    lexLe as bs = true → lexLe bs cs = true → lexLe as cs = true := by
  intro as
  induction as with
  | nil => intro bs cs _ _; rfl
  | cons a as ih =>
    intro bs cs h1 h2
    cases bs with
    | nil => rw [lexLe] at h1; cases h1
    | cons b bs =>
      cases cs with
      | nil => rw [lexLe] at h2; cases h2
      | cons c cs =>
        rw [lexLe] at h1 h2 ⊢
        by_cases hab : a.toNat < b.toNat
        · by_cases hbc : b.toNat < c.toNat
          · rw [if_pos (by omega : a.toNat < c.toNat)]
          · by_cases hcb : c.toNat < b.toNat
            · rw [if_neg hbc, if_pos hcb] at h2; cases h2
            · rw [if_pos (by omega : a.toNat < c.toNat)]
        · by_cases hba : b.toNat < a.toNat
          · rw [if_neg hab, if_pos hba] at h1; cases h1
          · rw [if_neg hab, if_neg hba] at h1
            by_cases hbc : b.toNat < c.toNat
            · rw [if_pos (by omega : a.toNat < c.toNat)]
            · by_cases hcb : c.toNat < b.toNat
              · rw [if_neg hbc, if_pos hcb] at h2; cases h2
              · rw [if_neg hbc, if_neg hcb] at h2
                rw [if_neg (by omega : ¬ a.toNat < c.toNat),
                  if_neg (by omega : ¬ c.toNat < a.toNat)]
                exact ih bs cs h1 h2

theorem strLeB_total (s t : String) : strLeB s t = true ∨ strLeB t s = true :=
  lexLe_total s.data t.data

theorem strLeB_trans {s t u : String} (h1 : strLeB s t = true)
    (h2 : strLeB t u = true) : strLeB s u = true :=
  lexLe_trans s.data t.data u.data h1 h2

theorem mem_insertSorted (x y : String) : ∀ l : List String,
    y ∈ insertSorted x l ↔ y = x ∨ y ∈ l := by
  intro l
  induction l with
  | nil => simp [insertSorted]
  | cons z zs ih =>
    rw [insertSorted]
    split
    · simp [or_comm, or_left_comm]
    · simp only [List.mem_cons, ih]
      tauto

theorem mem_sortS (y : String) : ∀ l : List String, y ∈ sortS l ↔ y ∈ l := by
  intro l
  induction l with
  | nil => simp [sortS]
  | cons z zs ih =>
    show y ∈ insertSorted z (sortS zs) ↔ _
    rw [mem_insertSorted, ih]
    simp [eq_comm]

theorem sorted_insertSorted (x : String) : ∀ l : List String,
    List.Pairwise (fun a b => strLeB a b = true) l →
    List.Pairwise (fun a b => strLeB a b = true) (insertSorted x l) := by
  intro l
  induction l with
  | nil => intro _; simp [insertSorted]
  | cons z zs ih =>
    intro hp
    obtain ⟨hz, hzs⟩ := List.pairwise_cons.mp hp
    rw [insertSorted]
    split
    · rename_i hxz
      refine List.pairwise_cons.mpr ⟨?_, hp⟩
      intro b hb
      rcases List.mem_cons.mp hb with rfl | hb2
      · exact hxz
      · exact strLeB_trans hxz (hz b hb2)
    · rename_i hxz
      have hzx : strLeB z x = true := by
        rcases strLeB_total x z with h | h
        · exact absurd h hxz
        · exact h
      refine List.pairwise_cons.mpr ⟨?_, ih hzs⟩
      intro b hb
      rcases (mem_insertSorted x b zs).mp hb with rfl | hb2
      · exact hzx
      · exact hz b hb2

theorem sorted_sortS : ∀ l : List String,
    List.Pairwise (fun a b => strLeB a b = true) (sortS l) := by
  intro l
  induction l with
  | nil => exact List.Pairwise.nil
  | cons z zs ih => exact sorted_insertSorted z (sortS zs) ih

theorem lookupT_mem {t : List (String × List Nat)} {f : String} {c : List Nat}
    (h : lookupT t f = some c) : f ∈ t.map Prod.fst := by
  unfold lookupT at h
  cases hf : t.find? (fun e => e.1 == f) with
  | none => rw [hf] at h; cases h
  | some e =>
    have hm := List.mem_of_find?_eq_some hf
    have hp := List.find?_some hf
    have : e.1 = f := by simpa using hp
    rw [← this]
    exact List.mem_map_of_mem Prod.fst hm

theorem lookupT_isSome_of_mem {t : List (String × List Nat)} {f : String}
    (h : f ∈ t.map Prod.fst) : ∃ c, lookupT t f = some c := by
  obtain ⟨e, he, hef⟩ := List.mem_map.mp h
  have : (t.find? (fun e => e.1 == f)).isSome = true :=
    List.find?_isSome.mpr ⟨e, he, by simp [hef]⟩
  cases hf : t.find? (fun e => e.1 == f) with
  | none => rw [hf] at this; cases this
  | some e2 => exact ⟨e2.2, by unfold lookupT; rw [hf]; rfl⟩

theorem commonEntry_file_shape (lt ut : List (String × List Nat)) (f : String) :
    (commonEntry lt ut f).map DiffItem.file = [] ∨
    (commonEntry lt ut f).map DiffItem.file = [f] := by
  unfold commonEntry
  cases lookupT lt f with
  | none => left; rfl
  | some lc =>
    cases lookupT ut f with
    | none => left; rfl
    | some uc =>
      dsimp only
      split_ifs <;> simp

theorem newEntry_file_eq {ut : List (String × List Nat)} {f : String}
    (h : f ∈ ut.map Prod.fst) : (newEntry ut f).map DiffItem.file = [f] := by
  obtain ⟨c, hc⟩ := lookupT_isSome_of_mem h
  unfold newEntry
  rw [hc]
  dsimp only
  split <;> rfl

theorem commonEntry_nil_of_eq {lt ut : List (String × List Nat)} {f : String}
    {c : List Nat} (h1 : lookupT lt f = some c) (h2 : lookupT ut f = some c) :
    commonEntry lt ut f = [] := by
  unfold commonEntry
  rw [h1, h2]
  dsimp only
  split
  · rw [if_neg (by simp), if_neg (by simp)]
  · rw [if_neg (by
      simp [(generate_diff_eq_nil_iff (basenameCodes f) (basenameCodes f)
        (some (linesOfBytes c)) (some (linesOfBytes c))).mpr rfl])]

theorem flatMap_file_sublist (g : String → List DiffItem)
    (hg : ∀ f, (g f).map DiffItem.file = [] ∨ (g f).map DiffItem.file = [f]) :
    ∀ l : List String, ((l.flatMap g).map DiffItem.file).Sublist l := by
  intro l
  induction l with
  | nil => simp
  | cons f t ih =>
    rw [List.flatMap_cons, List.map_append]
    rcases hg f with h | h
    · rw [h, List.nil_append]
      exact ih.cons f
    · rw [h, List.singleton_append]
      exact ih.cons₂ f

theorem commonEntry_ne_nil {lt ut : List (String × List Nat)} {f : String}
    {lc uc : List Nat} (h1 : lookupT lt f = some lc)
    (h2 : lookupT ut f = some uc)
    (hdiff :
      ((is_binary_file (some lc) || is_binary_file (some uc)) = true ∧
        lc ≠ uc) ∨
      ((is_binary_file (some lc) || is_binary_file (some uc)) = false ∧
        linesOfBytes lc ≠ linesOfBytes uc)) :
    commonEntry lt ut f ≠ [] := by
  unfold commonEntry
  rw [h1, h2]
  dsimp only
  rcases hdiff with ⟨hb, hne⟩ | ⟨hb, hne⟩
  · rw [if_pos hb]
    by_cases hlen : lc.length = uc.length
    · rw [if_neg (by omega), if_pos hne]
      simp
    · rw [if_pos hlen]
      simp
  · rw [hb]
    simp only [Bool.false_eq_true, if_false]
    have hd : generate_diff (basenameCodes f) (basenameCodes f)
        (some (linesOfBytes lc)) (some (linesOfBytes uc)) ≠ [] := by
      intro hnil
      exact hne ((generate_diff_eq_nil_iff _ _ _ _).mp hnil)
    rw [if_pos hd]
    simp

theorem flatMap_file_eq (g : String → List DiffItem) :
    ∀ l : List String, (∀ f ∈ l, (g f).map DiffItem.file = [f]) →
    (l.flatMap g).map DiffItem.file = l := by
  intro l
  induction l with
  | nil => intro _; simp
  | cons f t ih =>
    intro hg
    rw [List.flatMap_cons, List.map_append, hg f (List.mem_cons_self ..),
      List.singleton_append, ih fun x hx => hg x (List.mem_cons_of_mem _ hx)]

theorem containsKey_iff (l : List String) (f : String) :
    l.contains f = true ↔ f ∈ l :=
  List.elem_iff

theorem contains_false_iff (l : List String) (f : String) :
    l.contains f = false ↔ f ∉ l := by
  constructor
  · intro h hm
    have hc := (containsKey_iff l f).mpr hm
    rw [hc] at h
    cases h
  · intro hm
    cases h : l.contains f
    · rfl
    · exact absurd ((containsKey_iff l f).mp h) hm

/-- Claim C4 (amended): the list returned by `diff_directories` consists of
three consecutive blocks — paths present in both trees, upstream-only
paths, local-only paths — each ordered lexicographically by relative path;
every entry of the first block is a path of both trees, the second and
third blocks cover exactly the paths present in exactly one tree, a path
whose byte content is identical in both trees produces no entry, and a
path of both trees produces an entry whenever its contents differ as
binaries or its decoded line sequences differ as text. -/
theorem claim_C4_amended (lt ut : List (String × List Nat)) :
    (∃ s1 s2 s3,
      (diff_directories lt ut).map DiffItem.file = s1 ++ s2 ++ s3 ∧
      List.Pairwise (fun x y => strLeB x y = true) s1 ∧
      List.Pairwise (fun x y => strLeB x y = true) s2 ∧
      List.Pairwise (fun x y => strLeB x y = true) s3 ∧
      (∀ f ∈ s1, f ∈ lt.map Prod.fst ∧ f ∈ ut.map Prod.fst) ∧
      (∀ f, f ∈ s2 ↔ f ∈ ut.map Prod.fst ∧ f ∉ lt.map Prod.fst) ∧
      (∀ f, f ∈ s3 ↔ f ∈ lt.map Prod.fst ∧ f ∉ ut.map Prod.fst)) ∧
    (∀ f c, lookupT lt f = some c → lookupT ut f = some c →
      f ∉ (diff_directories lt ut).map DiffItem.file) ∧
    (∀ f lc uc, lookupT lt f = some lc → lookupT ut f = some uc →
      (((is_binary_file (some lc) || is_binary_file (some uc)) = true ∧
          lc ≠ uc) ∨
        ((is_binary_file (some lc) || is_binary_file (some uc)) = false ∧
          linesOfBytes lc ≠ linesOfBytes uc)) →
      f ∈ (diff_directories lt ut).map DiffItem.file) := by
  have hs2eq : ((sortS ((ut.map Prod.fst).filter fun f =>
      !(lt.map Prod.fst).contains f)).flatMap (newEntry ut)).map DiffItem.file =
      sortS ((ut.map Prod.fst).filter fun f => !(lt.map Prod.fst).contains f) := by
    refine flatMap_file_eq _ _ fun f hf => ?_
    refine newEntry_file_eq ?_
    have := (List.mem_filter).mp ((mem_sortS f _).mp hf)
    exact this.1
  have hs3eq : ((sortS ((lt.map Prod.fst).filter fun f =>
      !(ut.map Prod.fst).contains f)).map
        (fun f => (⟨f, .deleted, codes "--- deleted: " ++ codes f⟩ : DiffItem))).map
        DiffItem.file =
      sortS ((lt.map Prod.fst).filter fun f => !(ut.map Prod.fst).contains f) := by
    rw [List.map_map,
      show (DiffItem.file ∘ fun f =>
        (⟨f, .deleted, codes "--- deleted: " ++ codes f⟩ : DiffItem)) = id from rfl,
      List.map_id]
  refine ⟨?_, ?_, ?_⟩
  · refine ⟨((sortS ((lt.map Prod.fst).filter fun f =>
        (ut.map Prod.fst).contains f)).flatMap (commonEntry lt ut)).map DiffItem.file,
      sortS ((ut.map Prod.fst).filter fun f => !(lt.map Prod.fst).contains f),
      sortS ((lt.map Prod.fst).filter fun f => !(ut.map Prod.fst).contains f),
      ?_, ?_, ?_, ?_, ?_, ?_, ?_⟩
    · unfold diff_directories
      rw [List.map_append, List.map_append, hs2eq, hs3eq]
    · exact List.Pairwise.sublist
        (flatMap_file_sublist _ (commonEntry_file_shape lt ut) _) (sorted_sortS _)
    · exact sorted_sortS _
    · exact sorted_sortS _
    · intro f hf
      obtain ⟨e, he, hef⟩ := List.mem_map.mp hf
      obtain ⟨g, hg, heg⟩ := List.mem_flatMap.mp he
      have hfile : f ∈ (commonEntry lt ut g).map DiffItem.file :=
        hef ▸ List.mem_map_of_mem DiffItem.file heg
      have hfg : f = g := by
        rcases commonEntry_file_shape lt ut g with h | h
        · rw [h] at hfile; cases hfile
        · rw [h] at hfile; exact List.mem_singleton.mp hfile
      subst hfg
      have := (List.mem_filter).mp ((mem_sortS f _).mp hg)
      exact ⟨this.1, (containsKey_iff _ f).mp this.2⟩
    · intro f
      rw [mem_sortS, List.mem_filter]
      simp only [Bool.not_eq_true', contains_false_iff]
    · intro f
      rw [mem_sortS, List.mem_filter]
      simp only [Bool.not_eq_true', contains_false_iff]
  · intro f c hl hu hmem
    unfold diff_directories at hmem
    rw [List.map_append, List.map_append, List.mem_append, List.mem_append] at hmem
    rcases hmem with (h1 | h2) | h3
    · obtain ⟨e, he, hef⟩ := List.mem_map.mp h1
      obtain ⟨g, hg, heg⟩ := List.mem_flatMap.mp he
      have hfile : f ∈ (commonEntry lt ut g).map DiffItem.file :=
        hef ▸ List.mem_map_of_mem DiffItem.file heg
      have hfg : f = g := by
        rcases commonEntry_file_shape lt ut g with h | h
        · rw [h] at hfile; cases hfile
        · rw [h] at hfile; exact List.mem_singleton.mp hfile
      subst hfg
      rw [commonEntry_nil_of_eq hl hu] at heg
      cases heg
    · rw [hs2eq, mem_sortS, List.mem_filter] at h2
      have := h2.2
      rw [Bool.not_eq_true', contains_false_iff] at this
      exact this (lookupT_mem hl)
    · rw [hs3eq, mem_sortS, List.mem_filter] at h3
      have := h3.2
      rw [Bool.not_eq_true', contains_false_iff] at this
      exact this (lookupT_mem hu)
  · intro f lc uc h1 h2 hdiff
    have hmemc : f ∈ sortS ((lt.map Prod.fst).filter fun g =>
        (ut.map Prod.fst).contains g) := by
      rw [mem_sortS, List.mem_filter]
      exact ⟨lookupT_mem h1, (containsKey_iff _ f).mpr (lookupT_mem h2)⟩
    obtain ⟨e, he⟩ : ∃ e, e ∈ commonEntry lt ut f := by
      cases hce : commonEntry lt ut f with
      | nil => exact absurd hce (commonEntry_ne_nil h1 h2 hdiff)
      | cons x t => exact ⟨x, List.mem_cons_self ..⟩
    have hfile : e.file = f := by
      have hmm : e.file ∈ (commonEntry lt ut f).map DiffItem.file :=
        List.mem_map_of_mem _ he
      rcases commonEntry_file_shape lt ut f with h | h
      · rw [h] at hmm; cases hmm
      · rw [h] at hmm; exact List.mem_singleton.mp hmm
    unfold diff_directories
    rw [List.map_append, List.map_append]
    refine List.mem_append.mpr (Or.inl (List.mem_append.mpr (Or.inl ?_)))
    rw [← hfile]
    exact List.mem_map_of_mem DiffItem.file (List.mem_flatMap.mpr ⟨f, hmemc, he⟩)

/-- Claim C4 counterexample: for the local tree `{b ↦ "x\n"}` and upstream
tree `{b ↦ "y\n", a ↦ "z\n"}` the returned list is `[b (modified),
a (new)]`, which is not ordered lexicographically by relative path over the
whole list. -/
theorem claim_C4_counterexample :
    ¬ List.Pairwise (fun x y => strLeB x y = true)
      ((diff_directories [("b", codes "x\n")]
        [("b", codes "y\n"), ("a", codes "z\n")]).map DiffItem.file) := by
  decide

/-- Claim C5: `generate_diff` returns the empty string iff the two files
have identical line sequences, a nonexistent file counting as empty
content; and diffing a nonempty file against a nonexistent path yields a
diff consisting of the two file headers, one hunk header, and then exactly
the `-`-prefixed lines of the first file in order — its only operations
are deletions of that file's lines. -/
theorem claim_C5 (ln un : List Nat) (la ub : Option (List (List Nat))) :
    (generate_diff ln un la ub = [] ↔ olines la = olines ub) ∧
    (∀ l ls, la = some (l :: ls) → ub = none →
      generate_diff ln un la ub =
        joinNL ((codes "--- " ++ (codes "local/" ++ ln)) ::
          (codes "+++ " ++ (codes "upstream/" ++ un)) ::
          (codes "@@ -" ++ fmtRange 0 (l :: ls).length ++ codes " +" ++
            fmtRange 0 0 ++ codes " @@") ::
          (l :: ls).map fun x => 45 :: x)) := by
  refine ⟨generate_diff_eq_nil_iff ln un la ub, ?_⟩
  intro l ls h1 h2
  subst h1
  subst h2
  unfold generate_diff
  rw [show olines (some (l :: ls)) = l :: ls from rfl,
    show olines none = ([] : List (List Nat)) from rfl,
    unified_diff_delete _ _ _ (by simp)]

/-- Witness for claim C5 at the one-line file `"a"` against a nonexistent
path. -/
theorem claim_C5_witness :
    generate_diff (codes "f") (codes "f") (some [[97]]) none =
      joinNL ((codes "--- " ++ (codes "local/" ++ codes "f")) ::
        (codes "+++ " ++ (codes "upstream/" ++ codes "f")) ::
        (codes "@@ -" ++ fmtRange 0 ([97] :: ([] : List (List Nat))).length ++
          codes " +" ++ fmtRange 0 0 ++ codes " @@") ::
        ([97] :: ([] : List (List Nat))).map fun x => 45 :: x) :=
  (claim_C5 (codes "f") (codes "f") (some [[97]]) none).2 [97] [] rfl rfl

/-- Claim C6: a readable file whose first 8192 bytes contain a null byte
is classified binary; a readable UTF-8 plain-text file (valid UTF-8 and,
being plain text, free of null bytes) smaller than 8 KB is classified
non-binary; and a path whose read fails with an I/O error is classified
binary. -/
theorem claim_C6 (bs : List Nat) :
    (0 ∈ bs.take 8192 → is_binary_file (some bs) = true) ∧
    (bs.length < 8192 → utf8Valid bs = true → 0 ∉ bs →
      is_binary_file (some bs) = false) ∧
    is_binary_file none = true := by
  refine ⟨?_, ?_, rfl⟩
  · intro h
    unfold is_binary_file
    dsimp only
    have hc : (bs.take 8192).contains 0 = true := List.elem_iff.mpr h
    rw [hc]
    rfl
  · intro hlen hval hmem
    unfold is_binary_file
    have h1 : bs.take 8192 = bs := List.take_of_length_le (by omega)
    have h2 : bs.contains 0 = false := by
      cases hc : bs.contains 0
      · rfl
      · exact absurd (List.elem_iff.mp hc) hmem
    dsimp only
    rw [h1, hval, h2]
    rfl

/-- Witness for claim C6: a null byte forces `true`, a small plain-text
file gives `false`, and a failed read gives `true`. -/
theorem claim_C6_witness :
    is_binary_file (some [0, 104]) = true ∧
    is_binary_file (some [104, 105]) = false ∧
    is_binary_file none = true :=
  ⟨(claim_C6 [0, 104]).1 (by decide),
    (claim_C6 [104, 105]).2.1 (by decide) (by decide) (by decide),
    (claim_C6 [104, 105]).2.2⟩

/-! ### `patch_applier.py`

The file system is a finite map from absolute paths (lists of path
components) to byte contents, as an association list.  `shutil` and `os`
primitives are modelled at the level of the files they touch. -/

/-- An absolute path, as a list of components. -/
abbrev FPath := List String

/-- A file system: an association list from file paths to byte contents. -/
abbrev FS := List (FPath × List Nat)

/-- Read the content of the file at `p`, if present. -/
def lookupF (fs : FS) (p : FPath) : Option (List Nat) :=
  (fs.find? fun e => e.1 == p).map (·.2)

/-- Whether a file entry lies strictly below directory `d`; if so, its
relative path and content. -/
def underEntry (d : FPath) (e : FPath × List Nat) : Option (FPath × List Nat) :=
  if d.isPrefixOf e.1 && decide (d.length < e.1.length) then
    some (e.1.drop d.length, e.2)
  else none

/-- The files strictly below directory `d`, keyed by their relative path
(the recursive `os.walk` view of `d`). -/
def filesUnder (fs : FS) (d : FPath) : List (FPath × List Nat) :=
  fs.filterMap (underEntry d)

/-- `shutil.rmtree(d)`: remove `d` and everything below it. -/
def rmtreeF (fs : FS) (d : FPath) : FS :=
  fs.filter fun e => !d.isPrefixOf e.1

/-- `shutil.copytree(src, dst)` for a fresh `dst`: every file of `src` is
copied to the corresponding relative position under `dst`. -/
def copytreeF (fs : FS) (src dst : FPath) : FS :=
  fs ++ (filesUnder fs src).map fun rc => (dst ++ rc.1, rc.2)

/-- `shutil.copy2(src, dst)` at the file level: overwrite `p` if it
exists, else create it. -/
def writeF (fs : FS) (p : FPath) (c : List Nat) : FS :=
  if fs.any fun e => e.1 == p then
    fs.map fun e => if e.1 == p then (p, c) else e
  else fs ++ [(p, c)]

/-- `backup_local(local_dir, backup_base)`: `shutil.copytree` of the local
directory to the fresh timestamped path `backupPath` (the source computes
`backupPath` from the basename of `local_dir` and the current time and
returns it). -/
def backup_local (fs : FS) (localDir backupPath : FPath) : FS :=
  copytreeF fs localDir backupPath

/-- `copy_upstream_files(upstream_dir, local_dir)`: copy every file under
upstream over the corresponding relative path under local (creating
directories as needed, overwriting existing files, deleting nothing) and
return the list of relative paths copied. -/
def copy_upstream_files (fs : FS) (upstreamDir localDir : FPath) :
    FS × List FPath :=
  ((filesUnder fs upstreamDir).foldl
      (fun acc rc => writeF acc (localDir ++ rc.1) rc.2) fs,
    (filesUnder fs upstreamDir).map Prod.fst)

/-- `restore_backup(backup_path, local_dir)`: remove the local directory
if it exists, then `shutil.copytree` the backup into its place. -/
def restore_backup (fs : FS) (backupPath localDir : FPath) : FS :=
  copytreeF (rmtreeF fs localDir) backupPath localDir

theorem filesUnder_append (l1 l2 : FS) (d : FPath) :
    filesUnder (l1 ++ l2) d = filesUnder l1 d ++ filesUnder l2 d :=
  List.filterMap_append _ _ _

theorem underEntry_eq_some {d : FPath} {e rc : FPath × List Nat}
    (h : underEntry d e = some rc) :
    d.isPrefixOf e.1 = true ∧ d.length < e.1.length ∧
      rc = (e.1.drop d.length, e.2) := by
  unfold underEntry at h
  split_ifs at h with hif
  have hand := (Bool.and_eq_true _ _).mp hif
  exact ⟨hand.1, of_decide_eq_true hand.2, (Option.some.injEq _ _).mp h |>.symm⟩

theorem underEntry_prepend (d : FPath) (rc : FPath × List Nat)
    (h : 0 < rc.1.length) : underEntry d (d ++ rc.1, rc.2) = some (rc.1, rc.2) := by
  unfold underEntry
  have hpre : d.isPrefixOf (d ++ rc.1) = true :=
    List.isPrefixOf_iff_prefix.mpr (List.prefix_append d rc.1)
  have hlen : d.length < (d ++ rc.1).length := by
    rw [List.length_append]; omega
  rw [if_pos (by rw [hpre, decide_eq_true hlen]; rfl)]
  rw [List.drop_left]

theorem filesUnder_rel_pos {fs : FS} {d : FPath} :
    ∀ rc ∈ filesUnder fs d, 0 < rc.1.length := by
  intro rc hrc
  obtain ⟨e, he, hcond⟩ := List.mem_filterMap.mp hrc
  obtain ⟨hp, hlen, hrc2⟩ := underEntry_eq_some hcond
  rw [hrc2]
  simp only [List.length_drop]
  omega

theorem filesUnder_map_prefixed_general (d2 : FPath) :
    ∀ L : List (FPath × List Nat), (∀ rc ∈ L, 0 < rc.1.length) →
    filesUnder (L.map fun rc => (d2 ++ rc.1, rc.2)) d2 = L := by
  intro L
  induction L with
  | nil => intro _; rfl
  | cons rc t ih =>
    intro h
    rw [List.map_cons]
    unfold filesUnder
    rw [List.filterMap_cons,
      underEntry_prepend d2 rc (h rc (List.mem_cons_self ..))]
    show (rc.1, rc.2) :: filesUnder _ d2 = rc :: t
    rw [ih fun x hx => h x (List.mem_cons_of_mem _ hx)]

theorem filesUnder_map_prefixed (fs : FS) (d d2 : FPath) :
    filesUnder ((filesUnder fs d).map fun rc => (d2 ++ rc.1, rc.2)) d2 =
      filesUnder fs d :=
  filesUnder_map_prefixed_general d2 _ filesUnder_rel_pos

theorem underEntry_eq_none_of_not_prefix {d : FPath} {e : FPath × List Nat}
    (h : d.isPrefixOf e.1 = false) : underEntry d e = none := by
  unfold underEntry
  rw [if_neg (by rw [h]; simp)]

theorem filesUnder_rmtree_self (d : FPath) : ∀ fs : FS,
    filesUnder (rmtreeF fs d) d = [] := by
  intro fs
  induction fs with
  | nil => rfl
  | cons e t ih =>
    unfold rmtreeF
    rw [List.filter_cons]
    split
    · rename_i hkeep
      have hnp : d.isPrefixOf e.1 = false := by
        cases h : d.isPrefixOf e.1
        · rfl
        · rw [h] at hkeep; cases hkeep
      unfold filesUnder
      rw [List.filterMap_cons, underEntry_eq_none_of_not_prefix hnp]
      exact ih
    · exact ih

theorem filesUnder_rmtree_other {d b : FPath} (h1 : ¬ d <+: b) (h2 : ¬ b <+: d) :
    ∀ fs : FS, filesUnder (rmtreeF fs d) b = filesUnder fs b := by
  intro fs
  induction fs with
  | nil => rfl
  | cons e t ih =>
    unfold rmtreeF
    rw [List.filter_cons]
    split
    · rename_i hkeep
      show filesUnder (e :: _) b = filesUnder (e :: t) b
      unfold filesUnder
      rw [List.filterMap_cons, List.filterMap_cons]
      cases underEntry b e with
      | none => exact ih
      | some rc => exact congrArg (rc :: ·) ih
    · rename_i hdrop
      have hdp : d.isPrefixOf e.1 = true := by
        cases h : d.isPrefixOf e.1
        · rw [h] at hdrop; exact absurd rfl hdrop
        · rfl
      have hbp : b.isPrefixOf e.1 = false := by
        cases h : b.isPrefixOf e.1
        · rfl
        · exfalso
          have hd := List.isPrefixOf_iff_prefix.mp hdp
          have hb := List.isPrefixOf_iff_prefix.mp h
          rcases List.prefix_or_prefix_of_prefix hd hb with hc | hc
          · exact h1 hc
          · exact h2 hc
      unfold filesUnder
      rw [List.filterMap_cons, underEntry_eq_none_of_not_prefix hbp]
      exact ih

/-- Claim C1: snapshotting a directory with `backup_local` and, after an
arbitrary mutation that leaves the backup area alone, calling
`restore_backup` on the snapshot path restores the directory to its exact
pre-mutation file map — byte-identical content for every file and no
extra files.  The hypotheses state that the timestamped backup path is
fresh and unrelated to the local directory, and that the mutation does
not touch the backup subtree. -/
theorem claim_C1 (fs fs2 : FS) (localDir backupPath : FPath)
    (hd1 : ¬ localDir <+: backupPath) (hd2 : ¬ backupPath <+: localDir)
    (hfresh : filesUnder fs backupPath = [])
    (hmut : filesUnder fs2 backupPath =
      filesUnder (backup_local fs localDir backupPath) backupPath) :
    filesUnder (restore_backup fs2 backupPath localDir) localDir =
      filesUnder fs localDir := by
  have hb : filesUnder (backup_local fs localDir backupPath) backupPath =
      filesUnder fs localDir := by
    unfold backup_local copytreeF
    rw [filesUnder_append, hfresh, List.nil_append, filesUnder_map_prefixed]
  have h2 : filesUnder (rmtreeF fs2 localDir) backupPath =
      filesUnder fs localDir := by
    rw [filesUnder_rmtree_other hd1 hd2, hmut, hb]
  unfold restore_backup copytreeF
  rw [filesUnder_append, filesUnder_rmtree_self, List.nil_append, h2,
    filesUnder_map_prefixed_general localDir _ ?_]
  rw [← h2]
  exact filesUnder_rel_pos

/-- Witness for claim C1 on a one-file skill directory whose file is
edited in place between backup and restore. -/
theorem claim_C1_witness :
    filesUnder (restore_backup
        [(["skill", "a.md"], [120]), (["bak", "skill-1", "a.md"], [104])]
        ["bak", "skill-1"] ["skill"]) ["skill"] =
      filesUnder [(["skill", "a.md"], [104])] ["skill"] :=
  claim_C1 [(["skill", "a.md"], [104])]
    [(["skill", "a.md"], [120]), (["bak", "skill-1", "a.md"], [104])]
    ["skill"] ["bak", "skill-1"]
    (by decide) (by decide) (by decide) (by decide)

theorem lookupF_append_right {fs : FS} {p : FPath}
    (h : ∀ e ∈ fs, (e.1 == p) = false) (l2 : FS) :
    lookupF (fs ++ l2) p = lookupF l2 p := by
  induction fs with
  | nil => rfl
  | cons e t ih =>
    unfold lookupF
    rw [List.cons_append, List.find?_cons, h e (List.mem_cons_self ..)]
    exact ih fun x hx => h x (List.mem_cons_of_mem _ hx)

theorem lookupF_map_update (p : FPath) (c : List Nat) : ∀ fs : FS,
    (fs.any fun e => e.1 == p) = true →
    lookupF (fs.map fun e => if e.1 == p then (p, c) else e) p = some c := by
  intro fs
  induction fs with
  | nil => intro h; cases h
  | cons e t ih =>
    intro h
    rw [List.map_cons]
    by_cases hep : (e.1 == p) = true
    · rw [if_pos hep]
      unfold lookupF
      rw [List.find?_cons, show ((p, c).1 == p) = true from by simp]
      rfl
    · have hep2 : (e.1 == p) = false := by
        cases hh : e.1 == p
        · rfl
        · exact absurd hh hep
      rw [if_neg hep]
      unfold lookupF
      rw [List.find?_cons, hep2]
      refine ih ?_
      rw [List.any_cons, hep2] at h
      simpa using h

theorem lookupF_append_single (fs : FS) (p q : FPath) (c : List Nat)
    (hne : q ≠ p) : lookupF (fs ++ [(p, c)]) q = lookupF fs q := by
  induction fs with
  | nil =>
    unfold lookupF
    have hpq : ((p, c).1 == q) = false := by
      simp only [beq_eq_false_iff_ne]
      exact fun h => hne h.symm
    rw [List.nil_append, List.find?_cons, hpq]
  | cons e t ih =>
    unfold lookupF
    rw [List.cons_append, List.find?_cons, List.find?_cons]
    cases e.1 == q
    · exact ih
    · rfl

theorem lookupF_writeF_self (fs : FS) (p : FPath) (c : List Nat) :
    lookupF (writeF fs p c) p = some c := by
  unfold writeF
  split
  · rename_i hany
    exact lookupF_map_update p c fs hany
  · rename_i hany
    have hfs : ∀ e ∈ fs, (e.1 == p) = false := by
      intro e he
      cases h : e.1 == p
      · rfl
      · exact absurd (List.any_eq_true.mpr ⟨e, he, h⟩) hany
    rw [lookupF_append_right hfs [(p, c)]]
    unfold lookupF
    rw [List.find?_cons, show ((p, c).1 == p) = true from by simp]
    rfl

theorem lookupF_writeF_other (fs : FS) (p q : FPath) (c : List Nat)
    (hne : q ≠ p) : lookupF (writeF fs p c) q = lookupF fs q := by
  unfold writeF
  split
  · rename_i hany
    clear hany
    induction fs with
    | nil => rfl
    | cons e t ih =>
      rw [List.map_cons]
      unfold lookupF
      rw [List.find?_cons, List.find?_cons]
      have hpq : ((p, c).1 == q) = false := by
        simp only [beq_eq_false_iff_ne]
        exact fun h => hne h.symm
      by_cases hep : (e.1 == p) = true
      · have he1 : e.1 = p := by simpa using hep
        have heq : (e.1 == q) = false := by
          rw [he1]
          simpa using hpq
        rw [if_pos hep, hpq, heq]
        exact ih
      · rw [if_neg hep]
        cases heq : e.1 == q
        · exact ih
        · rfl
  · exact lookupF_append_single fs p q c hne

theorem copy_fold_frame (localDir : FPath) :
    ∀ (L : List (FPath × List Nat)) (fs : FS) (q : FPath),
    (∀ rc ∈ L, q ≠ localDir ++ rc.1) →
    lookupF (L.foldl (fun acc rc => writeF acc (localDir ++ rc.1) rc.2) fs) q =
      lookupF fs q := by
  intro L
  induction L with
  | nil => intro fs q _; rfl
  | cons rc t ih =>
    intro fs q h
    rw [List.foldl_cons, ih _ q fun x hx => h x (List.mem_cons_of_mem _ hx)]
    exact lookupF_writeF_other fs _ q rc.2 (h rc (List.mem_cons_self ..))

theorem copy_fold_write (localDir : FPath) :
    ∀ (L : List (FPath × List Nat)) (fs : FS), (L.map Prod.fst).Nodup →
    ∀ r c, (r, c) ∈ L →
    lookupF (L.foldl (fun acc rc => writeF acc (localDir ++ rc.1) rc.2) fs)
      (localDir ++ r) = some c := by
  intro L
  induction L with
  | nil => intro fs _ r c h; cases h
  | cons rc t ih =>
    intro fs hnd r c hmem
    rw [List.map_cons] at hnd
    obtain ⟨hh, ht⟩ := List.nodup_cons.mp hnd
    rw [List.foldl_cons]
    rcases List.mem_cons.mp hmem with heq | hmem2
    · obtain ⟨hr, hc⟩ : r = rc.1 ∧ c = rc.2 :=
        ⟨congrArg Prod.fst heq, congrArg Prod.snd heq⟩
      subst hr
      subst hc
      rw [copy_fold_frame localDir t _ _ ?_]
      · exact lookupF_writeF_self fs _ _
      · intro x hx heqp
        refine hh ?_
        rw [List.append_cancel_left heqp]
        exact List.mem_map_of_mem Prod.fst hx
    · exact ih _ ht r c hmem2

theorem eq_of_prefix_drop {d p q : FPath} (hp : d.isPrefixOf p = true)
    (hq : d.isPrefixOf q = true) (h : p.drop d.length = q.drop d.length) :
    p = q := by
  obtain ⟨tp, htp⟩ := List.isPrefixOf_iff_prefix.mp hp
  obtain ⟨tq, htq⟩ := List.isPrefixOf_iff_prefix.mp hq
  subst htp
  subst htq
  rw [List.drop_left, List.drop_left] at h
  rw [h]

theorem filesUnder_keys_nodup : ∀ fs : FS, (fs.map Prod.fst).Nodup →
    ∀ d, ((filesUnder fs d).map Prod.fst).Nodup := by
  intro fs
  induction fs with
  | nil => intro _ d; exact List.nodup_nil
  | cons e t ih =>
    intro h d
    rw [List.map_cons] at h
    obtain ⟨hh, ht⟩ := List.nodup_cons.mp h
    unfold filesUnder
    rw [List.filterMap_cons]
    cases hu : underEntry d e with
    | none => exact ih ht d
    | some rc =>
      rw [List.map_cons]
      refine List.nodup_cons.mpr ⟨?_, ih ht d⟩
      intro hmem
      obtain ⟨rc2, hrc2, hfst⟩ := List.mem_map.mp hmem
      obtain ⟨e2, he2, hcond2⟩ := List.mem_filterMap.mp hrc2
      obtain ⟨hp1, hl1, hrc1⟩ := underEntry_eq_some hu
      obtain ⟨hp2, hl2, hrc2eq⟩ := underEntry_eq_some hcond2
      have hee : e.1 = e2.1 := by
        refine eq_of_prefix_drop hp1 hp2 ?_
        have h1 : rc.1 = e.1.drop d.length := by rw [hrc1]
        have h2 : rc2.1 = e2.1.drop d.length := by rw [hrc2eq]
        rw [← h1, ← h2, hfst]
      exact hh (hee ▸ List.mem_map_of_mem Prod.fst he2)

/-- Claim C2: after `copy_upstream_files(upstream_dir, local_dir)`, every
file under upstream exists at the corresponding relative path under local
with upstream's content; every path that is not a copy target — in
particular every pre-existing local-only file — still has its previous
content; and the returned list is exactly the relative paths of the files
under upstream.  Well-formedness: the file system has no duplicate paths;
disjointness of the two directories reflects that the walk of the
upstream tree is unaffected by the copies. -/
theorem claim_C2 (fs : FS) (upstreamDir localDir : FPath)
    (hwf : (fs.map Prod.fst).Nodup)
    (hd1 : ¬ upstreamDir <+: localDir) (hd2 : ¬ localDir <+: upstreamDir) :
    (∀ r c, (r, c) ∈ filesUnder fs upstreamDir →
      lookupF (copy_upstream_files fs upstreamDir localDir).1 (localDir ++ r) =
        some c) ∧
    (∀ q, (∀ r ∈ (copy_upstream_files fs upstreamDir localDir).2,
        q ≠ localDir ++ r) →
      lookupF (copy_upstream_files fs upstreamDir localDir).1 q = lookupF fs q) ∧
    (copy_upstream_files fs upstreamDir localDir).2 =
      (filesUnder fs upstreamDir).map Prod.fst := by
  refine ⟨?_, ?_, rfl⟩
  · intro r c hrc
    exact copy_fold_write localDir (filesUnder fs upstreamDir) fs
      (filesUnder_keys_nodup fs hwf upstreamDir) r c hrc
  · intro q hq
    refine copy_fold_frame localDir _ fs q ?_
    intro rc hrc
    exact hq rc.1 (List.mem_map_of_mem Prod.fst hrc)

/-- Witness for claim C2 on a file system with one upstream file and one
local-only file. -/
theorem claim_C2_witness :
    lookupF (copy_upstream_files
        [(["up", "f.md"], [104]), (["loc", "g.md"], [103])] ["up"] ["loc"]).1
      (["loc"] ++ ["f.md"]) = some [104] ∧
    lookupF (copy_upstream_files
        [(["up", "f.md"], [104]), (["loc", "g.md"], [103])] ["up"] ["loc"]).1
      ["loc", "g.md"] =
      lookupF [(["up", "f.md"], [104]), (["loc", "g.md"], [103])]
        ["loc", "g.md"] ∧
    (copy_upstream_files
        [(["up", "f.md"], [104]), (["loc", "g.md"], [103])] ["up"] ["loc"]).2 =
      (filesUnder [(["up", "f.md"], [104]), (["loc", "g.md"], [103])]
        ["up"]).map Prod.fst :=
  ⟨(claim_C2 [(["up", "f.md"], [104]), (["loc", "g.md"], [103])] ["up"] ["loc"]
      (by decide) (by decide) (by decide)).1 ["f.md"] [104] (by decide),
    (claim_C2 [(["up", "f.md"], [104]), (["loc", "g.md"], [103])] ["up"] ["loc"]
      (by decide) (by decide) (by decide)).2.1 ["loc", "g.md"] (by decide),
    (claim_C2 [(["up", "f.md"], [104]), (["loc", "g.md"], [103])] ["up"] ["loc"]
      (by decide) (by decide) (by decide)).2.2⟩

/-! ### `upstream_check.py`

The external `git` processes are modelled as oracles handed to the
functions: a clone attempt either yields a clone path or fails with the
captured stderr, and a clone's history is the list of `(sha, oneline
entry)` pairs, newest first. -/

/-- `git log {since}..HEAD --oneline` on a clone whose history is
`commits` (newest first): an error when `since` is not in the available
history, else the entries strictly newer than `since`. -/
def gitLogRange (commits : List (String × String)) (since : String) :
    Except Unit (List String) :=
  if (commits.map Prod.fst).contains since then
    .ok ((commits.takeWhile fun c => c.1 != since).map Prod.snd)
  else .error ()

/-- `get_commit_log(clone_path, since_sha)`: try the range log first; use
it only when it is nonempty, otherwise (failure or empty output) return
all available commits. -/
def get_commit_log (commits : List (String × String)) (since : String) :
    List String :=
  match gitLogRange commits since with
  | .ok l => if l.isEmpty then commits.map Prod.snd else l
  | .error _ => commits.map Prod.snd

/-- The dict returned by `check_upstream`; absent keys are `none`. -/
structure CheckResult where
  has_updates : Option Bool
  old_sha : String
  new_sha : Option String
  clone_path : Option String
  skill_path_in_clone : Option String
  error : Option String
  commit_log : Option String
deriving DecidableEq

/-- The git oracles consumed by one `check_upstream` call: the result of
each of the up to three `clone_to_temp` invocations (depth 1, depth 50,
and the depth-1 fallback), `git rev-parse HEAD`, and the history of a
clone by path. -/
structure GitWorld where
  clone1 : Except String String
  clone2 : Except String String
  clone3 : Except String String
  headSha : String → Except String String
  history : String → List (String × String)

/-- `os.path.join(clone_path, repo_subpath) if repo_subpath else
clone_path`. -/
def skillPathInClone (p sub : String) : String :=
  if sub = "" then p else p ++ "/" ++ sub

/-- `check_upstream(repo_url, repo_subpath, last_checked_commit)`: a
failing first clone is caught and reported in the result; any other
uncaught subprocess failure propagates as `.error` (a raised exception). -/
def check_upstream (w : GitWorld) (repo_subpath last_checked_commit : String) :
    Except String CheckResult :=
  match w.clone1 with
  | .error e =>
    .ok ⟨none, last_checked_commit, none, none, none,
      some ("Failed to clone: " ++ e), none⟩
  | .ok clone_path =>
    match w.headSha clone_path with
    | .error e => .error e
    | .ok new_sha =>
      if new_sha ≠ last_checked_commit then
        match w.clone2 with
        | .ok p2 =>
          .ok ⟨some true, last_checked_commit, some new_sha, some p2,
            some (skillPathInClone p2 repo_subpath), none,
            some (String.intercalate "\n"
              (get_commit_log (w.history p2) last_checked_commit))⟩
        | .error _ =>
          match w.clone3 with
          | .ok p3 =>
            .ok ⟨some true, last_checked_commit, some new_sha, some p3,
              some (skillPathInClone p3 repo_subpath), none,
              some "(could not retrieve commit log)"⟩
          | .error e => .error e
      else
        .ok ⟨some false, last_checked_commit, some new_sha, some clone_path,
          some (skillPathInClone clone_path repo_subpath), none, none⟩

/-- `p.startswith(q)` on path strings. -/
def pathStartsWith (p q : String) : Bool := q.data.isPrefixOf p.data

/-- `p` actually lies under the directory `root`: it is the root itself or
continues it past a path separator. -/
def pathUnder (root p : String) : Prop :=
  p = root ∨ (root ++ "/").data.isPrefixOf p.data = true

/-- The effect of `cleanup(clone_path)` on the set of existing paths, with
`tmpRoot` the process temp root (`tempfile.gettempdir()`): `shutil.rmtree`
removes the path and everything below it exactly when the path is truthy,
exists, and starts with the temp root. -/
def cleanup (tmpRoot : String) (fs : List String) (clone_path : String) :
    List String :=
  if clone_path ≠ "" ∧ clone_path ∈ fs ∧
      pathStartsWith clone_path tmpRoot = true then
    fs.filter fun q => !(q == clone_path || pathStartsWith q (clone_path ++ "/"))
  else fs

/-- Claim C3: when the clone of an unreachable remote fails,
`check_upstream` does not raise and returns a result with
`has_updates = None`, `old_sha` equal to the last-known revision, a
populated `error`, and no clone path (nor any of the other keys). -/
theorem claim_C3 (w : GitWorld) (repo_subpath last e : String)
    (h : w.clone1 = .error e) :
    check_upstream w repo_subpath last =
      .ok ⟨none, last, none, none, none, some ("Failed to clone: " ++ e),
        none⟩ := by
  unfold check_upstream
  rw [h]

/-- Witness for claim C3 on a world whose clone attempts all fail. -/
theorem claim_C3_witness :
    check_upstream
        ⟨.error "fatal: unable to access", .error "x", .error "x",
          fun _ => .error "x", fun _ => []⟩ "" "abc" =
      .ok ⟨none, "abc", none, none, none,
        some ("Failed to clone: " ++ "fatal: unable to access"), none⟩ :=
  claim_C3 ⟨.error "fatal: unable to access", .error "x", .error "x",
    fun _ => .error "x", fun _ => []⟩ "" "abc" "fatal: unable to access" rfl

/-- Claim C7 (amended): `get_commit_log` returns exactly the commits
between `since` and the head whenever `since` is reachable in the
available history and that range is nonempty; it returns the full
available log when `since` is unreachable or the range is empty. -/
theorem claim_C7_amended (commits : List (String × String)) (since : String) :
    (since ∈ commits.map Prod.fst →
      ((commits.takeWhile fun c => c.1 != since).map Prod.snd) ≠ [] →
      get_commit_log commits since =
        (commits.takeWhile fun c => c.1 != since).map Prod.snd) ∧
    (since ∉ commits.map Prod.fst ∨
        ((commits.takeWhile fun c => c.1 != since).map Prod.snd) = [] →
      get_commit_log commits since = commits.map Prod.snd) := by
  constructor
  · intro hmem hne
    unfold get_commit_log gitLogRange
    rw [if_pos ((containsKey_iff _ _).mpr hmem)]
    dsimp only
    rw [if_neg ?_]
    cases h : (commits.takeWhile fun c => c.1 != since).map Prod.snd with
    | nil => exact absurd h hne
    | cons x t => simp
  · intro h
    unfold get_commit_log gitLogRange
    rcases h with h | h
    · rw [if_neg fun hc => h ((containsKey_iff _ _).mp hc)]
    · by_cases hmem : (commits.map Prod.fst).contains since = true
      · rw [if_pos hmem]
        dsimp only
        rw [if_pos (by rw [h]; rfl)]
      · rw [if_neg hmem]

/-- Witness for claim C7 (amended): a two-commit history with `since` at
the older commit uses the range log; an unreachable `since` falls back to
the full log. -/
theorem claim_C7_witness :
    get_commit_log [("b", "b msg"), ("a", "a msg")] "a" =
      (([("b", "b msg"), ("a", "a msg")].takeWhile
        fun c => c.1 != "a").map Prod.snd) ∧
    get_commit_log [("b", "b msg"), ("a", "a msg")] "zzz" =
      [("b", "b msg"), ("a", "a msg")].map Prod.snd :=
  ⟨(claim_C7_amended [("b", "b msg"), ("a", "a msg")] "a").1 (by decide)
      (by decide),
    (claim_C7_amended [("b", "b msg"), ("a", "a msg")] "zzz").2
      (Or.inl (by decide))⟩

/-- Claim C7 counterexample: with a single-commit history whose head is
`since` itself, `since` is reachable and the set of commits between
`since` and the head is empty, yet `get_commit_log` returns the full log
instead of that empty range. -/
theorem claim_C7_counterexample :
    "a" ∈ ([("a", "a msg")].map Prod.fst) ∧
    get_commit_log [("a", "a msg")] "a" ≠
      (([("a", "a msg")].takeWhile fun c => c.1 != "a").map Prod.snd) := by
  decide

/-- Claim C8 (amended): `cleanup` deletes nothing when the given path does
not start (as a string) with the process temp root, and it removes
anything only when the path does start with the temp root — a string
prefix check, which also admits sibling paths that merely extend the root
as a string, rather than the paths strictly under the root directory. -/
theorem claim_C8_amended (tmpRoot : String) (fs : List String) (p : String) :
    (pathStartsWith p tmpRoot = false → cleanup tmpRoot fs p = fs) ∧
    (cleanup tmpRoot fs p ≠ fs → pathStartsWith p tmpRoot = true) := by
  have key : pathStartsWith p tmpRoot = false → cleanup tmpRoot fs p = fs := by
    intro h
    unfold cleanup
    rw [if_neg ?_]
    rintro ⟨-, -, hs⟩
    rw [h] at hs
    cases hs
  refine ⟨key, fun h => ?_⟩
  cases hs : pathStartsWith p tmpRoot
  · exact absurd (key hs) h
  · rfl

/-- Witness for claim C8 (amended): a path outside the temp root is left
alone. -/
theorem claim_C8_witness :
    cleanup "/tmp" ["/home/user/data"] "/home/user/data" =
      ["/home/user/data"] :=
  (claim_C8_amended "/tmp" ["/home/user/data"] "/home/user/data").1 (by decide)

/-- Claim C8 counterexample: with temp root `/tmp`, the existing path
`/tmpevil` is not under `/tmp`, yet `cleanup` deletes it, because the
source checks `clone_path.startswith(tempfile.gettempdir())`. -/
theorem claim_C8_counterexample :
    ¬ pathUnder "/tmp" "/tmpevil" ∧
    cleanup "/tmp" ["/tmpevil"] "/tmpevil" ≠ ["/tmpevil"] := by
  constructor
  · rintro (h | h)
    · exact absurd h (by decide)
    · revert h
      decide
  · decide

/-! ### `registry.py` -/

/-- One registry entry; `registry.py` stores exactly these ten fields. -/
structure SkillEntry where
  name : String
  github_repo : String
  repo_subpath : String
  local_path : String
  last_checked_commit : String
  baseline_commit : String
  adaptation_notes : String
  adaptation_diff : String
  registered_at : String
  last_updated_at : String
deriving DecidableEq

/-- The persisted registry file content (`version` tag and skill list). -/
structure RegData where
  version : Nat
  skills : List SkillEntry
deriving DecidableEq

/-- `Registry._read`: a missing file reads as the empty version-1
registry. -/
def regRead : Option RegData → RegData
  | none => ⟨1, []⟩
  | some d => d

/-- The ten keys of a registry entry dict. -/
def registryFieldNames : List String :=
  ["name", "github_repo", "repo_subpath", "local_path", "last_checked_commit",
    "baseline_commit", "adaptation_notes", "adaptation_diff", "registered_at",
    "last_updated_at"]

namespace Registry

/-- `Registry.add`: reject a duplicate name before any mutation
(`ValueError`, modelled as the `.error` message with the quote characters
omitted), else append the new entry and persist; `now` is the current UTC
timestamp used for both timestamps. -/
def add (file : Option RegData) (now name github_repo repo_subpath
    local_path last_checked_commit baseline_commit adaptation_notes
    adaptation_diff : String) : Except String (RegData × SkillEntry) :=
  if (regRead file).skills.any fun e => e.name == name then
    .error ("Skill " ++ name ++ " is already registered")
  else
    .ok (⟨(regRead file).version, (regRead file).skills ++
        [⟨name, github_repo, repo_subpath, local_path, last_checked_commit,
          baseline_commit, adaptation_notes, adaptation_diff, now, now⟩]⟩,
      ⟨name, github_repo, repo_subpath, local_path, last_checked_commit,
        baseline_commit, adaptation_notes, adaptation_diff, now, now⟩)

/-- The registry file after an `add` call: rewritten on success, untouched
when the call raised. -/
def addFile (file : Option RegData) (now name github_repo repo_subpath
    local_path last_checked_commit baseline_commit adaptation_notes
    adaptation_diff : String) : Option RegData :=
  match add file now name github_repo repo_subpath local_path
      last_checked_commit baseline_commit adaptation_notes adaptation_diff with
  | .ok (d, _) => some d
  | .error _ => file

/-- `entry[k] = v` on the ten fields of an entry dict; `none` models
`k not in entry`. -/
def setField (e : SkillEntry) (k v : String) : Option SkillEntry :=
  if k = "name" then some { e with name := v }
  else if k = "github_repo" then some { e with github_repo := v }
  else if k = "repo_subpath" then some { e with repo_subpath := v }
  else if k = "local_path" then some { e with local_path := v }
  else if k = "last_checked_commit" then some { e with last_checked_commit := v }
  else if k = "baseline_commit" then some { e with baseline_commit := v }
  else if k = "adaptation_notes" then some { e with adaptation_notes := v }
  else if k = "adaptation_diff" then some { e with adaptation_diff := v }
  else if k = "registered_at" then some { e with registered_at := v }
  else if k = "last_updated_at" then some { e with last_updated_at := v }
  else none

/-- The field loop of `Registry.update`: apply each `(k, v)` in order,
raising `KeyError` at the first unknown field. -/
def applyFields (e : SkillEntry) :
    List (String × String) → Except String SkillEntry
  | [] => .ok e
  | (k, v) :: rest =>
    match setField e k v with
    | some e2 => applyFields e2 rest
    | none => .error ("Unknown field: " ++ k)

/-- The entry traversal of `Registry.update`: mutate the first entry with
the given name, stamp `last_updated_at`, and rebuild the list; `KeyError`
when the name is absent. -/
def updateSkills (now name : String) (fields : List (String × String)) :
    List SkillEntry → Except String (List SkillEntry × SkillEntry)
  | [] => .error ("Skill " ++ name ++ " not found")
  | e :: rest =>
    if e.name == name then
      match applyFields e fields with
      | .ok e2 => .ok ({ e2 with last_updated_at := now } :: rest,
          { e2 with last_updated_at := now })
      | .error m => .error m
    else
      match updateSkills now name fields rest with
      | .ok (l, x) => .ok (e :: l, x)
      | .error m => .error m

/-- `Registry.update(name, **fields)`: read, mutate in memory, and only
then write the whole file back. -/
def update (file : Option RegData) (now name : String)
    (fields : List (String × String)) : Except String (RegData × SkillEntry) :=
  match updateSkills now name fields (regRead file).skills with
  | .ok (l, x) => .ok (⟨(regRead file).version, l⟩, x)
  | .error m => .error m

/-- The registry file after an `update` call: rewritten on success,
untouched when the call raised. -/
def updateFile (file : Option RegData) (now name : String)
    (fields : List (String × String)) : Option RegData :=
  match update file now name fields with
  | .ok (d, _) => some d
  | .error _ => file

end Registry

theorem setField_eq_none {k : String} (e : SkillEntry) (v : String)
    (h : k ∉ registryFieldNames) : Registry.setField e k v = none := by
  simp only [registryFieldNames, List.mem_cons, List.mem_singleton] at h
  push_neg at h
  obtain ⟨h1, h2, h3, h4, h5, h6, h7, h8, h9, h10, -⟩ := h
  unfold Registry.setField
  rw [if_neg h1, if_neg h2, if_neg h3, if_neg h4, if_neg h5, if_neg h6,
    if_neg h7, if_neg h8, if_neg h9, if_neg h10]

theorem applyFields_error {fields : List (String × String)}
    (hbad : ∃ k ∈ fields.map Prod.fst, k ∉ registryFieldNames) :
    ∀ e, ∃ msg, Registry.applyFields e fields = .error msg := by
  induction fields with
  | nil =>
    obtain ⟨k, hk, _⟩ := hbad
    cases hk
  | cons kv rest ih =>
    obtain ⟨k1, v1⟩ := kv
    intro e
    obtain ⟨k, hk, hkbad⟩ := hbad
    rw [List.map_cons] at hk
    rcases List.mem_cons.mp hk with rfl | hk2
    · refine ⟨"Unknown field: " ++ k, ?_⟩
      unfold Registry.applyFields
      rw [setField_eq_none e v1 hkbad]
    · cases hs : Registry.setField e k1 v1 with
      | some e2 =>
        obtain ⟨msg, hmsg⟩ := ih ⟨k, hk2, hkbad⟩ e2
        refine ⟨msg, ?_⟩
        unfold Registry.applyFields
        rw [hs]
        exact hmsg
      | none =>
        refine ⟨"Unknown field: " ++ k1, ?_⟩
        unfold Registry.applyFields
        rw [hs]

theorem updateSkills_error {name : String} {fields : List (String × String)}
    (hbad : ∃ k ∈ fields.map Prod.fst, k ∉ registryFieldNames)
    (now : String) :
    ∀ skills : List SkillEntry, (∃ e ∈ skills, e.name = name) →
    ∃ msg, Registry.updateSkills now name fields skills = .error msg := by
  intro skills
  induction skills with
  | nil =>
    rintro ⟨e, he, _⟩
    cases he
  | cons e rest ih =>
    rintro ⟨e2, he2, hname⟩
    by_cases he : (e.name == name) = true
    · obtain ⟨msg, hmsg⟩ := applyFields_error hbad e
      refine ⟨msg, ?_⟩
      unfold Registry.updateSkills
      rw [if_pos he, hmsg]
    · have hrest : e2 ∈ rest := by
        rcases List.mem_cons.mp he2 with rfl | h2
        · exact absurd (beq_iff_eq.mpr hname) he
        · exact h2
      obtain ⟨msg, hmsg⟩ := ih ⟨e2, hrest, hname⟩
      refine ⟨msg, ?_⟩
      unfold Registry.updateSkills
      rw [if_neg he, hmsg]

/-- Claim C9: when the registry already contains an entry named `name`,
`Registry.add` raises `ValueError` and the persisted registry file is
unchanged — the existing entry is not mutated and no new entry is
written. -/
theorem claim_C9 (file : Option RegData) (now name github_repo repo_subpath
    local_path last_checked_commit baseline_commit adaptation_notes
    adaptation_diff : String)
    (h : ∃ e ∈ (regRead file).skills, e.name = name) :
    Registry.add file now name github_repo repo_subpath local_path
        last_checked_commit baseline_commit adaptation_notes adaptation_diff =
      .error ("Skill " ++ name ++ " is already registered") ∧
    Registry.addFile file now name github_repo repo_subpath local_path
        last_checked_commit baseline_commit adaptation_notes adaptation_diff =
      file := by
  obtain ⟨e, he, hname⟩ := h
  have hany : ((regRead file).skills.any fun e => e.name == name) = true :=
    List.any_eq_true.mpr ⟨e, he, beq_iff_eq.mpr hname⟩
  have hadd : Registry.add file now name github_repo repo_subpath local_path
      last_checked_commit baseline_commit adaptation_notes adaptation_diff =
      .error ("Skill " ++ name ++ " is already registered") := by
    unfold Registry.add
    rw [if_pos hany]
  refine ⟨hadd, ?_⟩
  unfold Registry.addFile
  rw [hadd]

/-- Witness for claim C9 on a one-entry registry with a colliding name. -/
theorem claim_C9_witness :
    Registry.add (some ⟨1, [⟨"x", "r", "", "lp", "s1", "s1", "", "", "t0",
        "t0"⟩]⟩) "t1" "x" "r2" "" "lp2" "s2" "s2" "" "" =
      .error ("Skill " ++ "x" ++ " is already registered") ∧
    Registry.addFile (some ⟨1, [⟨"x", "r", "", "lp", "s1", "s1", "", "", "t0",
        "t0"⟩]⟩) "t1" "x" "r2" "" "lp2" "s2" "s2" "" "" =
      some ⟨1, [⟨"x", "r", "", "lp", "s1", "s1", "", "", "t0", "t0"⟩]⟩ :=
  claim_C9 (some ⟨1, [⟨"x", "r", "", "lp", "s1", "s1", "", "", "t0", "t0"⟩]⟩)
    "t1" "x" "r2" "" "lp2" "s2" "s2" "" "" (by decide)

/-- Claim C10: when the registry contains an entry named `name` and the
field mapping includes at least one key that is not a field of the entry,
`Registry.update` raises `KeyError` and the persisted registry file is
unchanged, even when keys listed before the unknown one are valid — the
write happens only after the whole field loop succeeds. -/
theorem claim_C10 (file : Option RegData) (now name : String)
    (fields : List (String × String))
    (hmem : ∃ e ∈ (regRead file).skills, e.name = name)
    (hbad : ∃ k ∈ fields.map Prod.fst, k ∉ registryFieldNames) :
    (∃ msg, Registry.update file now name fields = .error msg) ∧
    Registry.updateFile file now name fields = file := by
  obtain ⟨msg, hmsg⟩ := updateSkills_error hbad now (regRead file).skills hmem
  have hupd : Registry.update file now name fields = .error msg := by
    unfold Registry.update
    rw [hmsg]
  refine ⟨⟨msg, hupd⟩, ?_⟩
  unfold Registry.updateFile
  rw [hupd]

/-- Witness for claim C10: a valid key before an unknown key still leaves
the registry file untouched. -/
theorem claim_C10_witness :
    (∃ msg, Registry.update
        (some ⟨1, [⟨"x", "r", "", "lp", "s1", "s1", "", "", "t0", "t0"⟩]⟩)
        "t1" "x" [("local_path", "lp2"), ("bogus", "v")] = .error msg) ∧
    Registry.updateFile
        (some ⟨1, [⟨"x", "r", "", "lp", "s1", "s1", "", "", "t0", "t0"⟩]⟩)
        "t1" "x" [("local_path", "lp2"), ("bogus", "v")] =
      some ⟨1, [⟨"x", "r", "", "lp", "s1", "s1", "", "", "t0", "t0"⟩]⟩ :=
  claim_C10
    (some ⟨1, [⟨"x", "r", "", "lp", "s1", "s1", "", "", "t0", "t0"⟩]⟩)
    "t1" "x" [("local_path", "lp2"), ("bogus", "v")]
    (by decide) (by decide)

end SkillSync
